import Mathlib

/-!
Shallow embedding of the modio-api-go synchronization/indexing core.

Strings that flow through the Redis indices (mod names, tag names, sorted-set
members) are modelled as byte strings (`List Nat`), because the lexical range
query of `SearchTitlesByPrefix` is a byte-wise comparison in Redis and uses the
sentinel byte 0xff.  Go's `strings.ToLower` / `strings.TrimSpace` /
`strings.EqualFold` are modelled on the ASCII subset, which covers every
constant the program compares against ("Map", "Script", "map", "script").
Fixed protocol constants (event type names, type keys) are spelled through
`bs`, the ASCII byte encoding of a literal.
-/

namespace ModioApi

/-- Byte strings: Go `string` values viewed as their byte sequences. -/
abbrev ByteStr := List Nat

/-- ASCII byte encoding of a Lean string literal (all constants in the
program are ASCII, where code points and bytes coincide). -/
def bs (s : String) : ByteStr := s.data.map Char.toNat

/-- ASCII lower-casing of one byte, as done by `strings.ToLower` on ASCII. -/
def lowerByte (b : Nat) : Nat := if 65 ≤ b ∧ b ≤ 90 then b + 32 else b

/-- ASCII lower-casing of a byte string (`strings.ToLower`). -/
def toLowerB (s : ByteStr) : ByteStr := s.map lowerByte

/-- ASCII whitespace recognised by `strings.TrimSpace` (tab, LF, VT, FF, CR,
space). -/
def isSpaceB (b : Nat) : Bool := b = 9 || b = 10 || b = 11 || b = 12 || b = 13 || b = 32

/-- Model of `strings.TrimSpace`: drop leading and trailing whitespace. -/
def trimB (s : ByteStr) : ByteStr :=
  (s.dropWhile isSpaceB).reverse.dropWhile isSpaceB |>.reverse

/-- Model of `strings.EqualFold` restricted to ASCII: equality up to ASCII
case. -/
def eqFold (a b : ByteStr) : Bool := toLowerB a == toLowerB b

/-- Model of `normalizeStringForIndex` in mod_repository.go:
`strings.ToLower(strings.TrimSpace(s))`. -/
def normalizeStringForIndex (s : ByteStr) : ByteStr := toLowerB (trimB s)

/-- Decimal ASCII digits of a mod ID, as produced by `strconv.Itoa`. -/
def natBytes (n : Nat) : ByteStr := (Nat.toDigits 10 n).map Char.toNat

/-- The designated map tag constant `modio.MapTag` = "Map". -/
def mapTagB : ByteStr := bs "Map"

/-- The designated script tag constant `modio.ScriptModTag` = "Script". -/
def scriptTagB : ByteStr := bs "Script"

/-- Model of `repository.GetModTypeFromTag`: fold-insensitive match against
the two designated tags, otherwise the lower-cased trimmed input itself. -/
def GetModTypeFromTag (itemTypeTag : ByteStr) : ByteStr :=
  if eqFold itemTypeTag mapTagB then bs "map"
  else if eqFold itemTypeTag scriptTagB then bs "script"
  else toLowerB (trimB itemTypeTag)

/-- A mod record, keeping exactly the fields the synchronization core reads
(`ID`, `Name`, `DateUpdated`, `Tags`); every other field of `modio.Mod` is
carried through opaquely as `rest` (the JSON payload stored unmodified). -/
structure Mod where
  id : Nat
  name : ByteStr
  dateUpdated : Int
  tags : List ByteStr
  rest : ByteStr := []
deriving DecidableEq, Repr

/-- The tag-scan classifier of the sync coordinator
(processRecentChangesViaEvents): walk the tag list; the first tag equal to
`modio.MapTag` or to `modio.ScriptModTag` decides, with `break` on either
match; no match yields the empty tag (unknown). -/
def classifyTags : List ByteStr → ByteStr
  | [] => []
  | t :: ts =>
    if t = mapTagB then mapTagB
    else if t = scriptTagB then scriptTagB
    else classifyTags ts

/-- Classification of a freshly fetched mod during event processing: the same
scan over the new tags; if it yields nothing, the previously computed
`modTypeTag` (from the old stored record) is kept. -/
def classifyNewTag (newTags : List ByteStr) (oldTag : ByteStr) : ByteStr :=
  let c := classifyTags newTags
  if c = [] then oldTag else c

/-- Classification of the old stored record (empty when no record). -/
def classifyOldTag : Option Mod → ByteStr
  | none => []
  | some m => classifyTags m.tags

/-- Concatenation of the lists produced for each element, in order (the shape
in which pipeline commands accumulate). -/
def concatMap (f : α → List β) : List α → List β
  | [] => []
  | x :: xs => f x ++ concatMap f xs

/-- One queued Redis mutation, as issued by the repository helpers.  The five
command pairs correspond exactly to the key families of mod_repository.go:
`mod:<id>` (SET/DEL), `mods:type:<type>` (SADD/SREM),
`mod_titles:<type>` (ZADD/ZREM, score always 0),
`mods_by_dateupdated:<type>` (ZADD/ZREM keyed by id with the update timestamp
as score) and `tag:<tag>:<type>` (SADD/SREM). -/
inductive Cmd where
  | setPrimary (i : Nat) (m : Mod)
  | delPrimary (i : Nat)
  | sAddType (ty : ByteStr) (i : Nat)
  | sRemType (ty : ByteStr) (i : Nat)
  | zAddTitle (ty : ByteStr) (mem : ByteStr)
  | zRemTitle (ty : ByteStr) (mem : ByteStr)
  | zAddDate (ty : ByteStr) (i : Nat) (sc : Int)
  | zRemDate (ty : ByteStr) (i : Nat)
  | sAddTag (t : ByteStr) (ty : ByteStr) (i : Nat)
  | sRemTag (t : ByteStr) (ty : ByteStr) (i : Nat)
deriving DecidableEq, Repr

/-- Redis SADD on a set modelled as a duplicate-free list: a no-op when the
member is present, else the member is inserted. -/
def sadd [DecidableEq α] (x : α) (l : List α) : List α := if x ∈ l then l else x :: l

/-- Redis SREM / ZREM: the member is removed. -/
def srem [DecidableEq α] (x : α) (l : List α) : List α := l.filter (fun y => y ≠ x)

/-- The Index Store state: primary record table, per-type ID set, per-type
title sorted set (member set; all scores are 0), per-type date-updated sorted
set (member id with its score), per-(tag, type) ID set, and the incremental
watermark `modapi:scheduler:last_sync_event_ts`.  Redis sets are modelled as
duplicate-free lists in an unspecified enumeration order.  The wall-clock
freshness key `last_overall_write_ts` is real time and is not modelled. -/
@[ext]
structure Store where
  primary : Nat → Option Mod
  typeSet : ByteStr → List Nat
  titleIdx : ByteStr → List ByteStr
  dateIdx : ByteStr → Nat → Option Int
  tagSet : ByteStr → ByteStr → List Nat
  lastSyncEventTs : Int

/-- The store with no records, no index members and a zero watermark. -/
def emptyStore : Store :=
  { primary := fun _ => none
    typeSet := fun _ => []
    titleIdx := fun _ => []
    dateIdx := fun _ _ => none
    tagSet := fun _ _ => []
    lastSyncEventTs := 0 }

/-- Redis semantics of one queued command. -/
def applyCmd (S : Store) : Cmd → Store
  | .setPrimary i m =>
    { S with primary := fun j => if j = i then some m else S.primary j }
  | .delPrimary i =>
    { S with primary := fun j => if j = i then none else S.primary j }
  | .sAddType ty i =>
    { S with typeSet := fun k => if k = ty then sadd i (S.typeSet ty) else S.typeSet k }
  | .sRemType ty i =>
    { S with typeSet := fun k => if k = ty then srem i (S.typeSet ty) else S.typeSet k }
  | .zAddTitle ty mem =>
    { S with titleIdx := fun k => if k = ty then sadd mem (S.titleIdx ty) else S.titleIdx k }
  | .zRemTitle ty mem =>
    { S with titleIdx := fun k => if k = ty then srem mem (S.titleIdx ty) else S.titleIdx k }
  | .zAddDate ty i sc =>
    { S with dateIdx := fun k j => if k = ty ∧ j = i then some sc else S.dateIdx k j }
  | .zRemDate ty i =>
    { S with dateIdx := fun k j => if k = ty ∧ j = i then none else S.dateIdx k j }
  | .sAddTag t ty i =>
    { S with tagSet := fun u k => if u = t ∧ k = ty then sadd i (S.tagSet t ty) else S.tagSet u k }
  | .sRemTag t ty i =>
    { S with tagSet := fun u k => if u = t ∧ k = ty then srem i (S.tagSet t ty) else S.tagSet u k }

/-- Executing a pipeline: the queued commands apply in order. -/
def applyCmds (S : Store) (cs : List Cmd) : Store := cs.foldl applyCmd S

/-- The member stored in the per-type title sorted set:
`fmt.Sprintf("%s:%s", normalizedTitle, modIDStr)` (byte 58 is the colon). -/
def autocompleteMember (m : Mod) : ByteStr :=
  normalizeStringForIndex m.name ++ [58] ++ natBytes m.id

/-- Model of `AddModCommandsToPipeline`: write the primary record, add the id
to the type set, the title member to the title index, the id (scored by
`DateUpdated`) to the date index, and the id to every (normalized tag, type)
set. -/
def addModCommands (m : Mod) (itemTypeTag : ByteStr) : List Cmd :=
  let ty := GetModTypeFromTag itemTypeTag
  [Cmd.setPrimary m.id m, Cmd.sAddType ty m.id,
   Cmd.zAddTitle ty (autocompleteMember m),
   Cmd.zAddDate ty m.id m.dateUpdated]
  ++ m.tags.map (fun t => Cmd.sAddTag (normalizeStringForIndex t) ty m.id)

/-- Model of `AddRemoveModCommandsFromPipeline`: delete the primary record and
remove the id/member from the four index families, using the caller-supplied
prior record and type tag. -/
def removeModCommands (m : Mod) (itemTypeTag : ByteStr) : List Cmd :=
  let ty := GetModTypeFromTag itemTypeTag
  [Cmd.delPrimary m.id, Cmd.sRemType ty m.id,
   Cmd.zRemTitle ty (autocompleteMember m),
   Cmd.zRemDate ty m.id]
  ++ m.tags.map (fun t => Cmd.sRemTag (normalizeStringForIndex t) ty m.id)

/-- Model of `RemoveOrphanedTagIndexEntries`: remove the old mod's id from the
(tag, type) sets of normalized old tags that are absent from the new tags.
The Go code iterates a map of normalized names, whose order is unspecified;
the SREM commands commute, so list order is taken from the old tag list. -/
def orphanCommands (oldMod newMod : Mod) (itemTypeTag : ByteStr) : List Cmd :=
  let ty := GetModTypeFromTag itemTypeTag
  let newNames := newMod.tags.map normalizeStringForIndex
  ((oldMod.tags.map normalizeStringForIndex).filter (fun t => t ∉ newNames)).map
    (fun t => Cmd.sRemTag t ty oldMod.id)

/-- Byte-wise lexicographic order on byte strings (memcmp order, used by
Redis ZRANGEBYLEX). -/
def bleLex : ByteStr → ByteStr → Bool
  | [], _ => true
  | _ :: _, [] => false
  | a :: as, b :: bt => if a < b then true else if a = b then bleLex as bt else false

/-- A ZRANGEBYLEX query with inclusive bounds `[lo` and `[hi` and no count
limit: the members lying in the closed lexical interval. -/
def zRangeByLexAll (s : List ByteStr) (lo hi : ByteStr) : List ByteStr :=
  s.filter (fun m => bleLex lo m && bleLex m hi)

/-- Model of `SearchTitlesByPrefix` with an unbounded count: normalize the
query, return the empty set for an empty normalized query, otherwise range
over `[normalized, normalized ++ 0xff]` in the type's title index. -/
def searchTitlesByPrefixAll (st : Store) (modTypeTag p : ByteStr) : List ByteStr :=
  let ty := GetModTypeFromTag modTypeTag
  let np := normalizeStringForIndex p
  if np = [] then []
  else zRangeByLexAll (st.titleIdx ty) np (np ++ [255])

/-- A source change event (`modio.ModioEvent`): target mod, event kind and
event timestamp. -/
structure ModioEvent where
  modID : Nat
  eventType : String
  dateAdded : Int
deriving DecidableEq, Repr

/-- One page of the events endpoint (`modio.ModioEventsAPIResponse`). -/
structure ModioEventsResponse where
  data : List ModioEvent
  resultTotal : Nat
deriving Repr

/-- Outcome of a `GetModDetails` call: transport error, explicit not-found
(HTTP 404 becomes `nil, nil`), or the fresh record. -/
inductive DetailResult where
  | fetchErr
  | notFound
  | found (m : Mod)

/-- The delete path shared by event processing and full sync: with a stored
prior record, queue a full removal; otherwise only delete the primary key. -/
def removeOrDelCommands (old : Option Mod) (modID : Nat) (itemTypeTag : ByteStr) : List Cmd :=
  match old with
  | some o => removeModCommands o itemTypeTag
  | none => [Cmd.delPrimary modID]

/-- Per-event dispatch loop of `processRecentChangesViaEvents`.  All
repository reads happen while queueing (before the pipeline executes), so
they see the store `S` unchanged.  `detail i` is the detail fetch for the
i-th event; `cancelEvt i` the cancellation check before it.  Returns `none`
when cancelled mid-loop (the Go code returns from the whole cycle), else the
queued commands and the running maximum event timestamp.  Note that the
`fetchErr` and `notFound` outcomes `continue` before the timestamp update, so
those events do not advance the running maximum. -/
def eventLoop (S : Store) (detail : Nat → DetailResult) (cancelEvt : Nat → Bool) :
    List ModioEvent → Nat → List Cmd → Int → Option (List Cmd × Int)
  | [], _, acc, latest => some (acc, latest)
  | e :: rest, i, acc, latest =>
    if cancelEvt i then none
    else
      let old := S.primary e.modID
      let tag0 := classifyOldTag old
      if e.eventType = "MOD_DELETED" ∨ e.eventType = "MOD_UNAVAILABLE" then
        eventLoop S detail cancelEvt rest (i + 1)
          (acc ++ removeOrDelCommands old e.modID tag0) (max latest e.dateAdded)
      else if e.eventType = "MOD_AVAILABLE" ∨ e.eventType = "MOD_EDITED" ∨
          e.eventType = "MODFILE_CHANGED" then
        match detail i with
        | .fetchErr => eventLoop S detail cancelEvt rest (i + 1) acc latest
        | .notFound =>
          eventLoop S detail cancelEvt rest (i + 1)
            (acc ++ removeOrDelCommands old e.modID tag0) latest
        | .found nm =>
          let tag := classifyNewTag nm.tags tag0
          let orphan := match old with
            | some o => orphanCommands o nm tag
            | none => []
          eventLoop S detail cancelEvt rest (i + 1)
            (acc ++ orphan ++ addModCommands nm tag) (max latest e.dateAdded)
      else
        eventLoop S detail cancelEvt rest (i + 1) acc (max latest e.dateAdded)

/-- The tail of `processRecentChangesViaEvents` after pagination: run the
event loop, execute the pipeline when non-empty (a failed EXEC returns with
no watermark write; the model treats a failed EXEC as applying nothing), then
advance the watermark if the observed maximum exceeds the starting value. -/
def processEventsCore (S : Store) (es : List ModioEvent) (detail : Nat → DetailResult)
    (cancelEvt : Nat → Bool) (pipeOk : Bool) : Store :=
  match eventLoop S detail cancelEvt es 0 [] S.lastSyncEventTs with
  | none => S
  | some (cmds, latest) =>
    if cmds ≠ [] ∧ ¬pipeOk then S
    else if latest > S.lastSyncEventTs then
      { applyCmds S cmds with lastSyncEventTs := latest }
    else applyCmds S cmds

/-- `modEventsPageLimit` in the scheduler. -/
def modEventsPageLimit : Nat := 100

/-- `maxEventsToProcessInOneCycle` in the scheduler. -/
def maxEventsPerCycle : Nat := 1000

/-- Result of the event pagination loop: cancelled between pages (the Go code
returns from the whole cycle) or the accumulated events. -/
inductive PageResult where
  | cancelled
  | done (events : List ModioEvent)
deriving DecidableEq, Repr

/-- The event pagination loop: fetch a page at the current offset; a fetch
error or empty page breaks with what was accumulated; otherwise append and
stop when the page is short, the cumulative count reaches the reported total,
or the per-cycle maximum is reached; else check cancellation and continue at
the advanced offset. -/
def paginate (fetch : Nat → Option ModioEventsResponse) (cancelPag : Nat → Bool)
    (offset total : Nat) (acc : List ModioEvent) : PageResult :=
  match fetch offset with
  | none => .done acc
  | some r =>
    if r.data = [] then .done acc
    else
      if hstop : r.data.length < modEventsPageLimit ∨ total + r.data.length ≥ r.resultTotal ∨
          total + r.data.length ≥ maxEventsPerCycle then
        .done (acc ++ r.data)
      else if cancelPag (offset + r.data.length) then .cancelled
      else paginate fetch cancelPag (offset + r.data.length) (total + r.data.length)
        (acc ++ r.data)
termination_by maxEventsPerCycle - total
decreasing_by
  simp only [modEventsPageLimit, maxEventsPerCycle] at hstop ⊢
  omega

/-- A whole incremental event-processing cycle: the single-flight TryLock
check, the watermark read, pagination (seeded with the watermark), the
no-event early return, then the core processing. -/
def runEventCycle (S : Store) (locked : Bool) (fetch : Int → Nat → Option ModioEventsResponse)
    (cancelPag : Nat → Bool) (detail : Nat → DetailResult) (cancelEvt : Nat → Bool)
    (pipeOk : Bool) : Store :=
  if locked then S
  else
    match paginate (fetch S.lastSyncEventTs) cancelPag 0 0 [] with
    | .cancelled => S
    | .done es => if es = [] then S else processEventsCore S es detail cancelEvt pipeOk

/-- The removal half of `processType` inside `runFullSynchronization`:
removal commands for ids indexed under the type but absent from the fetched
listing (only a primary-key DEL when no stored record).  The SMEMBERS order
is unspecified in Redis and is modelled as the stored enumeration order (the
removal commands for distinct ids commute). -/
def remPhaseCmds (S : Store) (itemTypeTag : ByteStr) (A : List Mod) : List Cmd :=
  concatMap (fun x => removeOrDelCommands (S.primary x) x itemTypeTag)
    ((S.typeSet (GetModTypeFromTag itemTypeTag)).filter (fun x => x ∉ A.map Mod.id))

/-- The upsert half of `processType`: for every fetched mod in listing order,
orphaned-tag cleanup against the stored record (when one exists) followed by
the unconditional upsert. -/
def upsPhaseCmds (S : Store) (itemTypeTag : ByteStr) (A : List Mod) : List Cmd :=
  concatMap (fun m =>
    (match S.primary m.id with
     | some o => orphanCommands o m itemTypeTag
     | none => []) ++ addModCommands m itemTypeTag) A

/-- The whole command list queued by `processType` for one type: the removal
phase followed by the upsert phase.  All repository reads see the store as it
was before the type's pipeline executes. -/
def processTypeCommands (S : Store) (itemTypeTag : ByteStr) (A : List Mod) : List Cmd :=
  remPhaseCmds S itemTypeTag A ++ upsPhaseCmds S itemTypeTag A

/-- One type's full-sync processing applied to the store (queue then EXEC;
an empty pipeline is skipped, which applies nothing, as does folding an empty
command list). -/
def applyProcessType (S : Store) (itemTypeTag : ByteStr) (A : List Mod) : Store :=
  applyCmds S (processTypeCommands S itemTypeTag A)

/-- The running maximum of `DateUpdated` over the fetched listing, started at
zero, as tracked by `processType`. -/
def maxUpdOf (A : List Mod) : Int := A.foldl (fun acc m => max acc m.dateUpdated) 0

/-- A whole full reconciliation cycle: the single-flight TryLock check, then
the map type and the script type processed independently (a `none` listing
models a source fetch failure for that type: the type is skipped and marked
failed), and finally the watermark is overwritten with the overall maximum
`DateUpdated` when both types succeeded and that maximum is positive. -/
def runFullSync (S : Store) (locked : Bool) (fetchMaps fetchScripts : Option (List Mod)) :
    Store :=
  if locked then S
  else
    let mapRes : Store × Int × Bool :=
      match fetchMaps with
      | none => (S, 0, false)
      | some A => (applyProcessType S mapTagB A, maxUpdOf A, true)
    let scrRes : Store × Int × Bool :=
      match fetchScripts with
      | none => (mapRes.1, 0, false)
      | some A => (applyProcessType mapRes.1 scriptTagB A, maxUpdOf A, true)
    let overallMax : Int :=
      max (if mapRes.2.2 then mapRes.2.1 else 0) (if scrRes.2.2 then scrRes.2.1 else 0)
    if mapRes.2.2 ∧ scrRes.2.2 ∧ overallMax > 0 then
      { scrRes.1 with lastSyncEventTs := overallMax }
    else scrRes.1

/-- Whether a detail-fetch outcome makes the event loop `continue` before the
timestamp update (transport error or explicit not-found). -/
def detailSkipped : DetailResult → Bool
  | .found _ => false
  | _ => true

/-- The maximum event timestamp the event loop actually accumulates: every
fetched event contributes except an `MOD_AVAILABLE`/`MOD_EDITED`/
`MODFILE_CHANGED` event whose detail fetch errors or reports not-found
(those `continue` past the update). -/
def observedEventMax (detail : Nat → DetailResult) : List ModioEvent → Nat → Int → Int
  | [], _, latest => latest
  | e :: rest, i, latest =>
    if (e.eventType = "MOD_AVAILABLE" ∨ e.eventType = "MOD_EDITED" ∨
        e.eventType = "MODFILE_CHANGED") ∧ detailSkipped (detail i) = true then
      observedEventMax detail rest (i + 1) latest
    else
      observedEventMax detail rest (i + 1) (max latest e.dateAdded)

/-- Well-formedness: every stored record sits under the key of its own ID
(`mod:<id>` is written as `ModKeyPrefix + strconv.Itoa(mod.ID)`), so a record
read back for id `r` reports `ID = r`.  True of every store the program
builds. -/
def PrimConsistent (S : Store) : Prop := ∀ r m, S.primary r = some m → m.id = r

/-- Whether a command writes the primary key of id `x`. -/
def cmdWritesPrimary (x : Nat) : Cmd → Prop
  | .setPrimary i _ => i = x
  | .delPrimary i => i = x
  | _ => False

/-- Whether a command touches any index keyed by type `ty` (type set, title
index, date index, or any (tag, `ty`) set). -/
def cmdTouchesType (ty : ByteStr) : Cmd → Prop
  | .sAddType k _ => k = ty
  | .sRemType k _ => k = ty
  | .zAddTitle k _ => k = ty
  | .zRemTitle k _ => k = ty
  | .zAddDate k _ _ => k = ty
  | .zRemDate k _ => k = ty
  | .sAddTag _ k _ => k = ty
  | .sRemTag _ k _ => k = ty
  | _ => False

/-- Fixture: a mod carrying both designated tags (legitimately returned by
both per-type listings of the source). -/
def modBothTags : Mod := { id := 1, name := bs "Alpha", dateUpdated := 500, tags := [mapTagB, scriptTagB] }

/-- Fixture: a deletion event with timestamp 1000. -/
def evDel1000 : ModioEvent := { modID := 2, eventType := "MOD_DELETED", dateAdded := 1000 }

/-- Fixture: an edit event with timestamp 100. -/
def evEdit100 : ModioEvent := { modID := 5, eventType := "MOD_EDITED", dateAdded := 100 }

/-- Fixture: an events feed with a single page holding one event. -/
def feedDel1000 : Int → Nat → Option ModioEventsResponse :=
  fun _ off => if off = 0 then some { data := [evDel1000], resultTotal := 1 } else none

/-- Fixture: an events feed with a single page holding one edit event. -/
def feedEdit100 : Int → Nat → Option ModioEventsResponse :=
  fun _ off => if off = 0 then some { data := [evEdit100], resultTotal := 1 } else none

/-- Fixture: a map-tagged mod whose source `DateUpdated` is 500. -/
def mapMod500 : Mod := { id := 3, name := bs "Beta", dateUpdated := 500, tags := [mapTagB] }

/-- Fixture: the store after one incremental cycle processing `evDel1000`
(its watermark is 1000). -/
def storeAfterDel1000 : Store :=
  runEventCycle emptyStore false feedDel1000 (fun _ => false) (fun _ => DetailResult.fetchErr)
    (fun _ => false) true

/-- Fixture: a map mod whose title is the single letter "a" and whose id is
12, so its title-index member is the byte string "a:12". -/
def modTitleA : Mod := { id := 12, name := bs "a", dateUpdated := 1, tags := [mapTagB] }

/-- Fixture: the store holding only `modTitleA`, upserted as a map. -/
def storeTitleA : Store := applyCmds emptyStore (addModCommands modTitleA mapTagB)

/-- Fixture: a mod with a single old tag "Winter", used to exercise event
reclassification. -/
def modForC6 : Mod := { id := 9, name := bs "Gamma", dateUpdated := 7, tags := [mapTagB, bs "Winter"] }

/-- Fixture: a script-tagged mod with id 4. -/
def scriptMod5 : Mod := { id := 4, name := bs "Delta", dateUpdated := 5, tags := [scriptTagB] }

/-- Fixture: the store after one incremental cycle that fetched exactly
`evEdit100` and whose detail fetch for it failed. -/
def storeAfterFailedEdit : Store :=
  runEventCycle emptyStore false feedEdit100 (fun _ => false) (fun _ => DetailResult.fetchErr)
    (fun _ => false) true

theorem mem_sadd [DecidableEq α] {x y : α} {l : List α} : x ∈ sadd y l ↔ x = y ∨ x ∈ l := by
  unfold sadd
  by_cases h : y ∈ l
  · simp only [if_pos h]
    constructor
    · exact fun hx => Or.inr hx
    · rintro (rfl | hx) <;> assumption
  · simp [if_neg h]

theorem sadd_eq_self [DecidableEq α] {y : α} {l : List α} (h : y ∈ l) : sadd y l = l := by
  simp [sadd, h]

theorem mem_srem [DecidableEq α] {x y : α} {l : List α} : x ∈ srem y l ↔ x ∈ l ∧ x ≠ y := by
  simp [srem, List.mem_filter]

theorem srem_eq_self [DecidableEq α] {y : α} {l : List α} (h : y ∉ l) : srem y l = l := by
  unfold srem
  apply List.filter_eq_self.2
  intro a ha
  simp only [ne_eq, decide_eq_true_eq]
  rintro rfl
  exact h ha

theorem concatMap_append (f : α → List β) (l1 l2 : List α) :
    concatMap f (l1 ++ l2) = concatMap f l1 ++ concatMap f l2 := by
  induction l1 with
  | nil => rfl
  | cons a t ih => simp [concatMap, ih]

theorem mem_concatMap {f : α → List β} {l : List α} {x : β} :
    x ∈ concatMap f l ↔ ∃ a ∈ l, x ∈ f a := by
  induction l with
  | nil => simp [concatMap]
  | cons a t ih =>
    simp only [concatMap, List.mem_append, ih, List.mem_cons]
    constructor
    · rintro (hx | ⟨b, hb, hx⟩)
      · exact ⟨a, Or.inl rfl, hx⟩
      · exact ⟨b, Or.inr hb, hx⟩
    · rintro ⟨b, rfl | hb, hx⟩
      · exact Or.inl hx
      · exact Or.inr ⟨b, hb, hx⟩

theorem applyCmds_append (S : Store) (l1 l2 : List Cmd) :
    applyCmds S (l1 ++ l2) = applyCmds (applyCmds S l1) l2 := by
  simp [applyCmds, List.foldl_append]

theorem applyCmds_cons (S : Store) (c : Cmd) (l : List Cmd) :
    applyCmds S (c :: l) = applyCmds (applyCmd S c) l := rfl

theorem applyCmds_nil (S : Store) : applyCmds S [] = S := rfl

theorem applyCmd_wm (S : Store) (c : Cmd) : (applyCmd S c).lastSyncEventTs = S.lastSyncEventTs := by
  cases c <;> rfl

theorem applyCmds_wm (S : Store) (l : List Cmd) :
    (applyCmds S l).lastSyncEventTs = S.lastSyncEventTs := by
  induction l generalizing S with
  | nil => rfl
  | cons c t ih => rw [applyCmds_cons, ih, applyCmd_wm]

/-- C4 counterexample: the tag list [Script, Map] contains the designated Map
tag, yet the coordinator's classifier returns Script — the `break` on a
Script match fires before the Map tag is reached, so Map does not win
regardless of position. -/
theorem classifyTags_map_not_priority :
    classifyTags [scriptTagB, mapTagB] = scriptTagB ∧
      mapTagB ∈ [scriptTagB, mapTagB] ∧ scriptTagB ≠ mapTagB := by
  decide

/-- C4 (amended): classification returns the first tag in list order that
equals the designated Map tag or the designated Script tag (so Map wins only
when no Script tag occurs earlier in the list), and the empty (Unknown) tag
when no tag matches either. -/
theorem classifyTags_eq_first_match (ts : List ByteStr) :
    classifyTags ts = ((ts.find? (fun t => t == mapTagB || t == scriptTagB)).getD []) := by
  induction ts with
  | nil => rfl
  | cons t ts ih =>
    by_cases h1 : t = mapTagB
    · subst h1
      simp [classifyTags, List.find?]
    · by_cases h2 : t = scriptTagB
      · subst h2
        have : (scriptTagB == mapTagB) = false := by decide
        simp [classifyTags, List.find?, this]
        decide
      · have e1 : (t == mapTagB) = false := beq_eq_false_iff_ne.2 h1
        have e2 : (t == scriptTagB) = false := beq_eq_false_iff_ne.2 h2
        simp [classifyTags, List.find?, h1, h2, e1, e2, ih]

/-- C10: `GetModTypeFromTag` is total and case-insensitive — any input that
equals "Map" up to case yields "map", else any input equal to "Script" up to
case yields "script", else the lower-cased trimmed input itself is returned
(no error path exists).  The final conjunct records that the sync
coordinator's own classifier compares tag names case-sensitively: the
lower-case tag "map" is not recognised there. -/
theorem getModTypeFromTag_total_case_insensitive :
    (∀ s : ByteStr, eqFold s mapTagB = true → GetModTypeFromTag s = bs "map") ∧
    (∀ s : ByteStr, eqFold s mapTagB = false → eqFold s scriptTagB = true →
      GetModTypeFromTag s = bs "script") ∧
    (∀ s : ByteStr, eqFold s mapTagB = false → eqFold s scriptTagB = false →
      GetModTypeFromTag s = toLowerB (trimB s)) ∧
    classifyTags [bs "map"] = [] := by
  refine ⟨?_, ?_, ?_, by decide⟩
  · intro s h
    simp [GetModTypeFromTag, h]
  · intro s h1 h2
    simp [GetModTypeFromTag, h1, h2]
  · intro s h1 h2
    simp [GetModTypeFromTag, h1, h2]

/-- C10 witness: the three branches evaluated at concrete inputs. -/
theorem getModTypeFromTag_total_case_insensitive_witness :
    GetModTypeFromTag (bs "MAP") = bs "map" ∧
    GetModTypeFromTag (bs "sCrIpT") = bs "script" ∧
    GetModTypeFromTag (bs "  Gameplay ") = bs "gameplay" := by
  refine ⟨?_, ?_, ?_⟩
  · exact getModTypeFromTag_total_case_insensitive.1 (bs "MAP") (by decide)
  · exact getModTypeFromTag_total_case_insensitive.2.1 (bs "sCrIpT") (by decide) (by decide)
  · have h := getModTypeFromTag_total_case_insensitive.2.2.1 (bs "  Gameplay ") (by decide) (by decide)
    rw [h]
    decide

/-- C7: invoking a cycle of either kind while the exclusive guard is held
(`TryLock` fails) returns with the store — indices and both watermark
values — completely unchanged; the invocation queues nothing. -/
theorem singleFlight_zero_mutations (S : Store) (fetch : Int → Nat → Option ModioEventsResponse)
    (cp : Nat → Bool) (d : Nat → DetailResult) (ce : Nat → Bool) (po : Bool)
    (fm fs : Option (List Mod)) :
    runEventCycle S true fetch cp d ce po = S ∧ runFullSync S true fm fs = S := by
  constructor <;> simp [runEventCycle, runFullSync]

theorem bleLex_refl (p : ByteStr) : bleLex p p = true := by
  induction p with
  | nil => rfl
  | cons a t ih => simp [bleLex, ih]

/-- A member of the title index lies in the closed lexical range
`[q, q ++ 0xff]` exactly when `q` is a byte-wise prefix of it, provided the
member contains only bytes below 0xff (true of any UTF-8 encoded member). -/
theorem bleLex_range_iff {q m : ByteStr} (h : ∀ b ∈ m, b < 255) :
    (bleLex q m = true ∧ bleLex m (q ++ [255]) = true) ↔ q.isPrefixOf m = true := by
  induction q generalizing m with
  | nil =>
    cases m with
    | nil => simp [bleLex, List.isPrefixOf]
    | cons b bt =>
      have hb : b < 255 := h b (by simp)
      simp [bleLex, List.isPrefixOf, hb]
  | cons a as ih =>
    cases m with
    | nil => simp [bleLex, List.isPrefixOf]
    | cons b bt =>
      have htail : ∀ x ∈ bt, x < 255 := fun x hx => h x (by simp [hx])
      rcases lt_trichotomy a b with hab | hab | hab
      · have h1 : ¬ b < a := by omega
        have h2 : b ≠ a := by omega
        have h3 : a ≠ b := by omega
        simp [bleLex, List.isPrefixOf, h1, h2, h3]
      · subst hab
        simp only [List.cons_append, bleLex, lt_self_iff_false, if_false, if_pos rfl,
          List.isPrefixOf, beq_self_eq_true, Bool.true_and]
        exact ih htail
      · have h1 : ¬ a < b := by omega
        have h2 : a ≠ b := by omega
        simp [bleLex, h1, h2, List.isPrefixOf]

/-- C5 counterexample: with the store holding exactly the map mod titled "a"
(id 12, title-index member "a:12"): (i) the prefix whose normalization is
empty returns nothing although the stored entry's normalized title starts
with the (empty) normalized prefix; and (ii) the prefix "a:1" returns the
member "a:12" although the entry's normalized title "a" does not start with
"a:1" — the range query runs past the title into the ":id" suffix of the
member. -/
theorem searchTitles_title_claim_false :
    (searchTitlesByPrefixAll storeTitleA mapTagB [] = [] ∧
      storeTitleA.titleIdx (bs "map") ≠ [] ∧
      (normalizeStringForIndex []).isPrefixOf
        (normalizeStringForIndex modTitleA.name) = true) ∧
    (autocompleteMember modTitleA ∈ searchTitlesByPrefixAll storeTitleA mapTagB (bs "a:1") ∧
      (normalizeStringForIndex (bs "a:1")).isPrefixOf
        (normalizeStringForIndex modTitleA.name) = false) := by
  decide

/-- C5 (amended): for every type tag and every query whose normalization is
non-empty, the unbounded-limit title search returns exactly the stored
members of that type's title index that start byte-wise with the normalized
query (members are `normalizedTitle ++ ":" ++ id`, so this coincides with
"normalized title starts with the query" except when the query runs into the
":id" suffix), provided members contain no byte ≥ 255.  A query normalizing
to the empty string returns no entries. -/
theorem searchTitles_exact (st : Store) (tyTag p : ByteStr)
    (hp : normalizeStringForIndex p ≠ [])
    (hb : ∀ m ∈ st.titleIdx (GetModTypeFromTag tyTag), ∀ b ∈ m, b < 255) (m : ByteStr) :
    m ∈ searchTitlesByPrefixAll st tyTag p ↔
      m ∈ st.titleIdx (GetModTypeFromTag tyTag) ∧
        (normalizeStringForIndex p).isPrefixOf m = true := by
  unfold searchTitlesByPrefixAll zRangeByLexAll
  simp only [if_neg hp, List.mem_filter, Bool.and_eq_true]
  constructor
  · rintro ⟨hm, h1, h2⟩
    exact ⟨hm, (bleLex_range_iff (hb m hm)).1 ⟨h1, h2⟩⟩
  · rintro ⟨hm, hpre⟩
    exact ⟨hm, (bleLex_range_iff (hb m hm)).2 hpre⟩

/-- C5 witness: in the single-entry store, the query "A " (normalizing to
"a") returns exactly the member "a:12". -/
theorem searchTitles_exact_witness :
    autocompleteMember modTitleA ∈ searchTitlesByPrefixAll storeTitleA mapTagB (bs "A ") ↔
      autocompleteMember modTitleA ∈ storeTitleA.titleIdx (GetModTypeFromTag mapTagB) ∧
        (normalizeStringForIndex (bs "A ")).isPrefixOf (autocompleteMember modTitleA) = true :=
  searchTitles_exact storeTitleA mapTagB (bs "A ") (by decide) (by decide)
    (autocompleteMember modTitleA)

theorem observedEventMax_ge (detail : Nat → DetailResult) (es : List ModioEvent) :
    ∀ (i : Nat) (latest : Int), latest ≤ observedEventMax detail es i latest := by
  induction es with
  | nil => intro i latest; simp [observedEventMax]
  | cons e rest ih =>
    intro i latest
    rw [observedEventMax]
    split
    · exact ih (i + 1) latest
    · exact le_trans (le_max_left latest e.dateAdded) (ih (i + 1) (max latest e.dateAdded))

/-- In a cycle with no cancellation, the event loop returns and its running
maximum is exactly `observedEventMax`: every event contributes its timestamp
except the detail-kind events whose detail fetch errors or reports
not-found. -/
theorem eventLoop_latest (S : Store) (detail : Nat → DetailResult) (es : List ModioEvent) :
    ∀ (i : Nat) (acc : List Cmd) (latest : Int),
      ∃ cmds, eventLoop S detail (fun _ => false) es i acc latest =
        some (cmds, observedEventMax detail es i latest) := by
  induction es with
  | nil => intro i acc latest; exact ⟨acc, rfl⟩
  | cons e rest ih =>
    intro i acc latest
    rw [eventLoop, observedEventMax]
    simp only [Bool.false_eq_true, if_false]
    by_cases hdel : e.eventType = "MOD_DELETED" ∨ e.eventType = "MOD_UNAVAILABLE"
    · have hnd : ¬(e.eventType = "MOD_AVAILABLE" ∨ e.eventType = "MOD_EDITED" ∨
          e.eventType = "MODFILE_CHANGED") := by
        rcases hdel with h | h <;> simp [h]

      rw [if_pos hdel, if_neg (fun hcon => hnd hcon.1)]
      exact ih (i + 1) _ (max latest e.dateAdded)
    · rw [if_neg hdel]
      by_cases hup : e.eventType = "MOD_AVAILABLE" ∨ e.eventType = "MOD_EDITED" ∨
          e.eventType = "MODFILE_CHANGED"
      · rw [if_pos hup]
        cases hdet : detail i with
        | fetchErr =>
          rw [if_pos ⟨hup, rfl⟩]
          exact ih (i + 1) acc latest
        | notFound =>
          rw [if_pos ⟨hup, rfl⟩]
          exact ih (i + 1) _ latest
        | found nm =>
          rw [if_neg (fun hcon => Bool.false_ne_true hcon.2)]
          exact ih (i + 1) _ (max latest e.dateAdded)
      · rw [if_neg hup, if_neg (fun hcon => hup hcon.1)]
        exact ih (i + 1) acc (max latest e.dateAdded)

/-- C2 (amended): at the end of an uncancelled incremental cycle whose
pipeline execution succeeds, the stored watermark equals the maximum event
timestamp over the fetched events that did not hit a per-event detail-fetch
failure or not-found (seeded with the starting watermark, so it never moves
below it); detail-kind events whose fetch fails contribute nothing. -/
theorem processEventsCore_wm_observed (S : Store) (es : List ModioEvent)
    (detail : Nat → DetailResult) :
    (processEventsCore S es detail (fun _ => false) true).lastSyncEventTs =
      observedEventMax detail es 0 S.lastSyncEventTs := by
  obtain ⟨cmds, hc⟩ := eventLoop_latest S detail es 0 [] S.lastSyncEventTs
  unfold processEventsCore
  rw [hc]
  dsimp only
  rw [if_neg (fun h => h.2 rfl)]
  by_cases hlt : observedEventMax detail es 0 S.lastSyncEventTs > S.lastSyncEventTs
  · rw [if_pos hlt]
  · rw [if_neg hlt, applyCmds_wm]
    have := observedEventMax_ge detail es 0 S.lastSyncEventTs
    omega

/-- C2 counterexample: one incremental cycle fetches exactly one event (an
edit with timestamp 100, exceeding the starting watermark 0) whose detail
fetch fails; the claim requires the watermark to advance to 100, but the
code's `continue` skips the timestamp update and the watermark stays 0. -/
theorem eventCycle_failed_fetch_wm_not_advanced :
    storeAfterFailedEdit.lastSyncEventTs = 0 ∧ evEdit100.dateAdded = 100 ∧ (0 : Int) < 100 := by
  have h : storeAfterFailedEdit = processEventsCore emptyStore [evEdit100]
      (fun _ => DetailResult.fetchErr) (fun _ => false) true := by
    unfold storeAfterFailedEdit runEventCycle
    simp [paginate, feedEdit100, modEventsPageLimit, maxEventsPerCycle, emptyStore]
  refine ⟨?_, by decide, by decide⟩
  rw [h]
  decide

/-- C3 (amended): an incremental event-processing cycle never decreases the
stored watermark, whatever the guard state, feed, cancellation pattern,
detail results or pipeline outcome (a successful full reconciliation can
decrease it, see the counterexample). -/
theorem eventCycle_wm_monotone (S : Store) (locked : Bool)
    (fetch : Int → Nat → Option ModioEventsResponse) (cp : Nat → Bool)
    (d : Nat → DetailResult) (ce : Nat → Bool) (po : Bool) :
    S.lastSyncEventTs ≤ (runEventCycle S locked fetch cp d ce po).lastSyncEventTs := by
  unfold runEventCycle
  split
  · exact le_refl _
  · split
    · exact le_refl _
    · split
      · exact le_refl _
      · unfold processEventsCore
        split
        · exact le_refl _
        · split
          · exact le_refl _
          · split
            · rename_i latest cmds hpair hpipe hlt
              exact le_of_lt hlt
            · rw [applyCmds_wm]

/-- C3 counterexample: starting from the empty store, one incremental cycle
(processing a deletion event time-stamped 1000) raises the watermark to
1000; a subsequent fully successful full reconciliation, whose fetched
listings have maximum `DateUpdated` 500, overwrites the watermark with 500 —
the stored watermark decreases across the cycle sequence. -/
theorem wm_regression_after_full_sync :
    storeAfterDel1000.lastSyncEventTs = 1000 ∧
      (runFullSync storeAfterDel1000 false (some [mapMod500]) (some [])).lastSyncEventTs = 500 := by
  have h : storeAfterDel1000 = processEventsCore emptyStore [evDel1000]
      (fun _ => DetailResult.fetchErr) (fun _ => false) true := by
    unfold storeAfterDel1000 runEventCycle
    simp [paginate, feedDel1000, modEventsPageLimit, maxEventsPerCycle, emptyStore]
  constructor
  · rw [h]; decide
  · rw [h]; decide

theorem applyCmds_primary_frame (l : List Cmd) (x : Nat) :
    ∀ (S : Store), (∀ c ∈ l, ¬ cmdWritesPrimary x c) →
      (applyCmds S l).primary x = S.primary x := by
  induction l with
  | nil => intro S _; rfl
  | cons c t ih =>
    intro S h
    rw [applyCmds_cons, ih _ (fun d hd => h d (List.mem_cons_of_mem _ hd))]
    have hc := h c (List.mem_cons_self _ _)
    cases c with
    | setPrimary i m =>
      simp only [applyCmd]
      exact if_neg (fun he => hc (by simpa [cmdWritesPrimary] using he.symm))
    | delPrimary i =>
      simp only [applyCmd]
      exact if_neg (fun he => hc (by simpa [cmdWritesPrimary] using he.symm))
    | sAddType k i => rfl
    | sRemType k i => rfl
    | zAddTitle k mem => rfl
    | zRemTitle k mem => rfl
    | zAddDate k i sc => rfl
    | zRemDate k i => rfl
    | sAddTag u k i => rfl
    | sRemTag u k i => rfl

theorem applyCmds_primary_none (l : List Cmd) (x : Nat) :
    ∀ (S : Store), (∀ m, Cmd.setPrimary x m ∉ l) → S.primary x = none →
      (applyCmds S l).primary x = none := by
  induction l with
  | nil => intro S _ h0; exact h0
  | cons c t ih =>
    intro S h h0
    rw [applyCmds_cons]
    refine ih _ (fun m hm => h m (List.mem_cons_of_mem _ hm)) ?_
    cases c with
    | setPrimary i m =>
      simp only [applyCmd]
      by_cases hx : x = i
      · subst hx
        exact absurd (List.mem_cons_self _ _) (h m)
      · rw [if_neg hx]; exact h0
    | delPrimary i =>
      simp only [applyCmd]
      by_cases hx : x = i
      · rw [if_pos hx]
      · rw [if_neg hx]; exact h0
    | sAddType k i => exact h0
    | sRemType k i => exact h0
    | zAddTitle k mem => exact h0
    | zRemTitle k mem => exact h0
    | zAddDate k i sc => exact h0
    | zRemDate k i => exact h0
    | sAddTag u k i => exact h0
    | sRemTag u k i => exact h0

theorem applyCmds_typeSet_frame (l : List Cmd) (ty : ByteStr) :
    ∀ (S : Store), (∀ c ∈ l, ¬ cmdTouchesType ty c) →
      (applyCmds S l).typeSet ty = S.typeSet ty := by
  induction l with
  | nil => intro S _; rfl
  | cons c t ih =>
    intro S h
    rw [applyCmds_cons, ih _ (fun d hd => h d (List.mem_cons_of_mem _ hd))]
    have hc := h c (List.mem_cons_self _ _)
    cases c with
    | setPrimary i m => rfl
    | delPrimary i => rfl
    | sAddType k i =>
      simp only [applyCmd]
      exact if_neg (fun he => hc (by simpa [cmdTouchesType] using he.symm))
    | sRemType k i =>
      simp only [applyCmd]
      exact if_neg (fun he => hc (by simpa [cmdTouchesType] using he.symm))
    | zAddTitle k mem => rfl
    | zRemTitle k mem => rfl
    | zAddDate k i sc => rfl
    | zRemDate k i => rfl
    | sAddTag u k i => rfl
    | sRemTag u k i => rfl

theorem applyCmds_titleIdx_frame (l : List Cmd) (ty : ByteStr) :
    ∀ (S : Store), (∀ c ∈ l, ¬ cmdTouchesType ty c) →
      (applyCmds S l).titleIdx ty = S.titleIdx ty := by
  induction l with
  | nil => intro S _; rfl
  | cons c t ih =>
    intro S h
    rw [applyCmds_cons, ih _ (fun d hd => h d (List.mem_cons_of_mem _ hd))]
    have hc := h c (List.mem_cons_self _ _)
    cases c with
    | setPrimary i m => rfl
    | delPrimary i => rfl
    | sAddType k i => rfl
    | sRemType k i => rfl
    | zAddTitle k mem =>
      simp only [applyCmd]
      exact if_neg (fun he => hc (by simpa [cmdTouchesType] using he.symm))
    | zRemTitle k mem =>
      simp only [applyCmd]
      exact if_neg (fun he => hc (by simpa [cmdTouchesType] using he.symm))
    | zAddDate k i sc => rfl
    | zRemDate k i => rfl
    | sAddTag u k i => rfl
    | sRemTag u k i => rfl

theorem applyCmds_dateIdx_frame (l : List Cmd) (ty : ByteStr) :
    ∀ (S : Store), (∀ c ∈ l, ¬ cmdTouchesType ty c) →
      ∀ j, (applyCmds S l).dateIdx ty j = S.dateIdx ty j := by
  induction l with
  | nil => intro S _ j; rfl
  | cons c t ih =>
    intro S h j
    rw [applyCmds_cons, ih _ (fun d hd => h d (List.mem_cons_of_mem _ hd))]
    have hc := h c (List.mem_cons_self _ _)
    cases c with
    | setPrimary i m => rfl
    | delPrimary i => rfl
    | sAddType k i => rfl
    | sRemType k i => rfl
    | zAddTitle k mem => rfl
    | zRemTitle k mem => rfl
    | zAddDate k i sc =>
      simp only [applyCmd]
      exact if_neg (fun he => hc (by simp [cmdTouchesType, he.1]))
    | zRemDate k i =>
      simp only [applyCmd]
      exact if_neg (fun he => hc (by simp [cmdTouchesType, he.1]))
    | sAddTag u k i => rfl
    | sRemTag u k i => rfl

theorem applyCmds_tagSet_frame (l : List Cmd) (ty : ByteStr) :
    ∀ (S : Store), (∀ c ∈ l, ¬ cmdTouchesType ty c) →
      ∀ t, (applyCmds S l).tagSet t ty = S.tagSet t ty := by
  induction l with
  | nil => intro S _ t; rfl
  | cons c t' ih =>
    intro S h t
    rw [applyCmds_cons, ih _ (fun d hd => h d (List.mem_cons_of_mem _ hd))]
    have hc := h c (List.mem_cons_self _ _)
    cases c with
    | setPrimary i m => rfl
    | delPrimary i => rfl
    | sAddType k i => rfl
    | sRemType k i => rfl
    | zAddTitle k mem => rfl
    | zRemTitle k mem => rfl
    | zAddDate k i sc => rfl
    | zRemDate k i => rfl
    | sAddTag u k i =>
      simp only [applyCmd]
      exact if_neg (fun he => hc (by simp [cmdTouchesType, he.2]))
    | sRemTag u k i =>
      simp only [applyCmd]
      exact if_neg (fun he => hc (by simp [cmdTouchesType, he.2]))

theorem applyCmds_typeSet_mem (l : List Cmd) (ty : ByteStr) (x : Nat) :
    ∀ (S : Store), Cmd.sRemType ty x ∉ l → x ∈ S.typeSet ty →
      x ∈ (applyCmds S l).typeSet ty := by
  induction l with
  | nil => intro S _ hx; exact hx
  | cons c t ih =>
    intro S h hx
    rw [applyCmds_cons]
    refine ih _ (fun hm => h (List.mem_cons_of_mem _ hm)) ?_
    cases c with
    | setPrimary i m => exact hx
    | delPrimary i => exact hx
    | sAddType k i =>
      simp only [applyCmd]
      by_cases hk : ty = k
      · subst hk
        rw [if_pos rfl]
        exact mem_sadd.2 (Or.inr hx)
      · rw [if_neg hk]; exact hx
    | sRemType k i =>
      simp only [applyCmd]
      by_cases hk : ty = k
      · subst hk
        rw [if_pos rfl]
        refine mem_srem.2 ⟨hx, ?_⟩
        rintro rfl
        exact h (List.mem_cons_self _ _)
      · rw [if_neg hk]; exact hx
    | zAddTitle k mem => exact hx
    | zRemTitle k mem => exact hx
    | zAddDate k i sc => exact hx
    | zRemDate k i => exact hx
    | sAddTag u k i => exact hx
    | sRemTag u k i => exact hx

theorem applyCmds_typeSet_not_mem (l : List Cmd) (ty : ByteStr) (x : Nat) :
    ∀ (S : Store), Cmd.sAddType ty x ∉ l → x ∉ S.typeSet ty →
      x ∉ (applyCmds S l).typeSet ty := by
  induction l with
  | nil => intro S _ hx; exact hx
  | cons c t ih =>
    intro S h hx
    rw [applyCmds_cons]
    refine ih _ (fun hm => h (List.mem_cons_of_mem _ hm)) ?_
    cases c with
    | setPrimary i m => exact hx
    | delPrimary i => exact hx
    | sAddType k i =>
      simp only [applyCmd]
      by_cases hk : ty = k
      · subst hk
        rw [if_pos rfl]
        intro hmem
        rcases mem_sadd.1 hmem with rfl | hmem2
        · exact h (List.mem_cons_self _ _)
        · exact hx hmem2
      · rw [if_neg hk]; exact hx
    | sRemType k i =>
      simp only [applyCmd]
      by_cases hk : ty = k
      · subst hk
        rw [if_pos rfl]
        exact fun hmem => hx (mem_srem.1 hmem).1
      · rw [if_neg hk]; exact hx
    | zAddTitle k mem => exact hx
    | zRemTitle k mem => exact hx
    | zAddDate k i sc => exact hx
    | zRemDate k i => exact hx
    | sAddTag u k i => exact hx
    | sRemTag u k i => exact hx

theorem applyCmds_titleIdx_mem (l : List Cmd) (ty mem : ByteStr) :
    ∀ (S : Store), Cmd.zRemTitle ty mem ∉ l → mem ∈ S.titleIdx ty →
      mem ∈ (applyCmds S l).titleIdx ty := by
  induction l with
  | nil => intro S _ hx; exact hx
  | cons c t ih =>
    intro S h hx
    rw [applyCmds_cons]
    refine ih _ (fun hm => h (List.mem_cons_of_mem _ hm)) ?_
    cases c with
    | setPrimary i m => exact hx
    | delPrimary i => exact hx
    | sAddType k i => exact hx
    | sRemType k i => exact hx
    | zAddTitle k mem2 =>
      simp only [applyCmd]
      by_cases hk : ty = k
      · subst hk
        rw [if_pos rfl]
        exact mem_sadd.2 (Or.inr hx)
      · rw [if_neg hk]; exact hx
    | zRemTitle k mem2 =>
      simp only [applyCmd]
      by_cases hk : ty = k
      · subst hk
        rw [if_pos rfl]
        refine mem_srem.2 ⟨hx, ?_⟩
        rintro rfl
        exact h (List.mem_cons_self _ _)
      · rw [if_neg hk]; exact hx
    | zAddDate k i sc => exact hx
    | zRemDate k i => exact hx
    | sAddTag u k i => exact hx
    | sRemTag u k i => exact hx

theorem applyCmds_dateIdx_point (l : List Cmd) (ty : ByteStr) (x : Nat) :
    ∀ (S : Store), (∀ sc, Cmd.zAddDate ty x sc ∉ l) → Cmd.zRemDate ty x ∉ l →
      (applyCmds S l).dateIdx ty x = S.dateIdx ty x := by
  induction l with
  | nil => intro S _ _; rfl
  | cons c t ih =>
    intro S h1 h2
    rw [applyCmds_cons,
      ih _ (fun sc hm => h1 sc (List.mem_cons_of_mem _ hm))
        (fun hm => h2 (List.mem_cons_of_mem _ hm))]
    cases c with
    | setPrimary i m => rfl
    | delPrimary i => rfl
    | sAddType k i => rfl
    | sRemType k i => rfl
    | zAddTitle k mem => rfl
    | zRemTitle k mem => rfl
    | zAddDate k i sc =>
      simp only [applyCmd]
      refine if_neg (fun he => ?_)
      obtain ⟨rfl, rfl⟩ := he
      exact h1 sc (List.mem_cons_self _ _)
    | zRemDate k i =>
      simp only [applyCmd]
      refine if_neg (fun he => ?_)
      obtain ⟨rfl, rfl⟩ := he
      exact h2 (List.mem_cons_self _ _)
    | sAddTag u k i => rfl
    | sRemTag u k i => rfl

theorem applyCmds_tagSet_mem (l : List Cmd) (tg ty : ByteStr) (x : Nat) :
    ∀ (S : Store), Cmd.sRemTag tg ty x ∉ l → x ∈ S.tagSet tg ty →
      x ∈ (applyCmds S l).tagSet tg ty := by
  induction l with
  | nil => intro S _ hx; exact hx
  | cons c t ih =>
    intro S h hx
    rw [applyCmds_cons]
    refine ih _ (fun hm => h (List.mem_cons_of_mem _ hm)) ?_
    cases c with
    | setPrimary i m => exact hx
    | delPrimary i => exact hx
    | sAddType k i => exact hx
    | sRemType k i => exact hx
    | zAddTitle k mem => exact hx
    | zRemTitle k mem => exact hx
    | zAddDate k i sc => exact hx
    | zRemDate k i => exact hx
    | sAddTag u k i =>
      simp only [applyCmd]
      by_cases hk : tg = u ∧ ty = k
      · obtain ⟨rfl, rfl⟩ := hk
        rw [if_pos ⟨rfl, rfl⟩]
        exact mem_sadd.2 (Or.inr hx)
      · rw [if_neg hk]; exact hx
    | sRemTag u k i =>
      simp only [applyCmd]
      by_cases hk : tg = u ∧ ty = k
      · obtain ⟨rfl, rfl⟩ := hk
        rw [if_pos ⟨rfl, rfl⟩]
        refine mem_srem.2 ⟨hx, ?_⟩
        rintro rfl
        exact h (List.mem_cons_self _ _)
      · rw [if_neg hk]; exact hx

theorem mem_addModCommands {c : Cmd} {m : Mod} {tag : ByteStr} :
    c ∈ addModCommands m tag ↔
      c = Cmd.setPrimary m.id m ∨ c = Cmd.sAddType (GetModTypeFromTag tag) m.id ∨
      c = Cmd.zAddTitle (GetModTypeFromTag tag) (autocompleteMember m) ∨
      c = Cmd.zAddDate (GetModTypeFromTag tag) m.id m.dateUpdated ∨
      ∃ t, t ∈ m.tags ∧
        Cmd.sAddTag (normalizeStringForIndex t) (GetModTypeFromTag tag) m.id = c := by
  simp [addModCommands, List.mem_append, List.mem_cons, List.mem_map]

theorem mem_removeModCommands {c : Cmd} {o : Mod} {tag : ByteStr} :
    c ∈ removeModCommands o tag ↔
      c = Cmd.delPrimary o.id ∨ c = Cmd.sRemType (GetModTypeFromTag tag) o.id ∨
      c = Cmd.zRemTitle (GetModTypeFromTag tag) (autocompleteMember o) ∨
      c = Cmd.zRemDate (GetModTypeFromTag tag) o.id ∨
      ∃ t, t ∈ o.tags ∧
        Cmd.sRemTag (normalizeStringForIndex t) (GetModTypeFromTag tag) o.id = c := by
  simp [removeModCommands, List.mem_append, List.mem_cons, List.mem_map]

theorem mem_orphanCommands {c : Cmd} {o m : Mod} {tag : ByteStr} :
    c ∈ orphanCommands o m tag →
      ∃ t, Cmd.sRemTag t (GetModTypeFromTag tag) o.id = c := by
  intro hc
  simp only [orphanCommands, List.mem_map, List.mem_filter] at hc
  obtain ⟨t, _, hco⟩ := hc
  exact ⟨t, hco⟩

/-- Every command of the upsert phase targets one of the listed mods: it is
an upsert command for that mod's id (or member) or an orphaned-tag removal
for its id (the stored record read for id `m.id` has ID `m.id` by
well-formedness). -/
theorem upsPhaseCmds_shape {S : Store} {tag : ByteStr} {A : List Mod}
    (hwf : PrimConsistent S) {c : Cmd} (hc : c ∈ upsPhaseCmds S tag A) :
    ∃ m, m ∈ A ∧
      (c = Cmd.setPrimary m.id m ∨ c = Cmd.sAddType (GetModTypeFromTag tag) m.id ∨
       c = Cmd.zAddTitle (GetModTypeFromTag tag) (autocompleteMember m) ∨
       c = Cmd.zAddDate (GetModTypeFromTag tag) m.id m.dateUpdated ∨
       (∃ t, c = Cmd.sAddTag t (GetModTypeFromTag tag) m.id) ∨
       (∃ t, c = Cmd.sRemTag t (GetModTypeFromTag tag) m.id)) := by
  rw [upsPhaseCmds, mem_concatMap] at hc
  obtain ⟨m, hm, hcm⟩ := hc
  refine ⟨m, hm, ?_⟩
  rcases List.mem_append.1 hcm with horph | hadd
  · cases ho : S.primary m.id with
    | none => rw [ho] at horph; exact absurd horph (List.not_mem_nil c)
    | some o =>
      rw [ho] at horph
      obtain ⟨t, hco⟩ := mem_orphanCommands horph
      right; right; right; right; right
      exact ⟨t, by rw [← hco, hwf m.id o ho]⟩
  · rcases mem_addModCommands.1 hadd with h | h | h | h | ⟨t, _, h⟩
    · exact Or.inl h
    · exact Or.inr (Or.inl h)
    · exact Or.inr (Or.inr (Or.inl h))
    · exact Or.inr (Or.inr (Or.inr (Or.inl h)))
    · exact Or.inr (Or.inr (Or.inr (Or.inr (Or.inl ⟨_, h.symm⟩))))

/-- Every command of the removal phase targets an id that is indexed under
the type but absent from the listing: a bare primary-key DEL when no record
was stored, else one of the full-removal commands for that id (whose stored
record has that ID by well-formedness). -/
theorem remPhaseCmds_shape {S : Store} {tag : ByteStr} {A : List Mod}
    (hwf : PrimConsistent S) {c : Cmd} (hc : c ∈ remPhaseCmds S tag A) :
    ∃ r, r ∈ S.typeSet (GetModTypeFromTag tag) ∧ r ∉ A.map Mod.id ∧
      ((S.primary r = none ∧ c = Cmd.delPrimary r) ∨
       (∃ o, S.primary r = some o ∧
         (c = Cmd.delPrimary r ∨ c = Cmd.sRemType (GetModTypeFromTag tag) r ∨
          (∃ mem, c = Cmd.zRemTitle (GetModTypeFromTag tag) mem) ∨
          c = Cmd.zRemDate (GetModTypeFromTag tag) r ∨
          (∃ t, c = Cmd.sRemTag t (GetModTypeFromTag tag) r)))) := by
  rw [remPhaseCmds, mem_concatMap] at hc
  obtain ⟨r, hr, hcr⟩ := hc
  rw [List.mem_filter] at hr
  refine ⟨r, hr.1, by simpa using hr.2, ?_⟩
  cases ho : S.primary r with
  | none =>
    rw [removeOrDelCommands.eq_def, ho] at hcr
    rcases List.mem_cons.1 hcr with h | h
    · exact Or.inl ⟨rfl, h⟩
    · exact absurd h (List.not_mem_nil c)
  | some o =>
    rw [removeOrDelCommands.eq_def, ho] at hcr
    have hid : o.id = r := hwf r o ho
    refine Or.inr ⟨o, rfl, ?_⟩
    rcases mem_removeModCommands.1 hcr with h | h | h | h | ⟨t, _, h⟩
    · exact Or.inl (by rw [h, hid])
    · exact Or.inr (Or.inl (by rw [h, hid]))
    · exact Or.inr (Or.inr (Or.inl ⟨_, h⟩))
    · exact Or.inr (Or.inr (Or.inr (Or.inl (by rw [h, hid]))))
    · exact Or.inr (Or.inr (Or.inr (Or.inr ⟨_, by rw [← h, hid]⟩)))

theorem applyCmds_idle (l : List Cmd) (T : Store) (h : ∀ c ∈ l, applyCmd T c = T) :
    applyCmds T l = T := by
  induction l with
  | nil => rfl
  | cons c t ih =>
    rw [applyCmds_cons, h c (List.mem_cons_self _ _)]
    exact ih (fun d hd => h d (List.mem_cons_of_mem _ hd))

theorem applyCmd_idle_setPrimary {T : Store} {x : Nat} {m : Mod} (h : T.primary x = some m) :
    applyCmd T (Cmd.setPrimary x m) = T := by
  refine Store.ext ?_ rfl rfl rfl rfl rfl
  funext j
  simp only [applyCmd]
  by_cases hj : j = x
  · subst hj; rw [if_pos rfl, h]
  · rw [if_neg hj]

theorem applyCmd_idle_delPrimary {T : Store} {x : Nat} (h : T.primary x = none) :
    applyCmd T (Cmd.delPrimary x) = T := by
  refine Store.ext ?_ rfl rfl rfl rfl rfl
  funext j
  simp only [applyCmd]
  by_cases hj : j = x
  · subst hj; rw [if_pos rfl, h]
  · rw [if_neg hj]

theorem applyCmd_idle_sAddType {T : Store} {ty : ByteStr} {x : Nat} (h : x ∈ T.typeSet ty) :
    applyCmd T (Cmd.sAddType ty x) = T := by
  refine Store.ext rfl ?_ rfl rfl rfl rfl
  funext k
  simp only [applyCmd]
  by_cases hk : k = ty
  · subst hk; rw [if_pos rfl, sadd_eq_self h]
  · rw [if_neg hk]

theorem applyCmd_idle_zAddTitle {T : Store} {ty mem : ByteStr} (h : mem ∈ T.titleIdx ty) :
    applyCmd T (Cmd.zAddTitle ty mem) = T := by
  refine Store.ext rfl rfl ?_ rfl rfl rfl
  funext k
  simp only [applyCmd]
  by_cases hk : k = ty
  · subst hk; rw [if_pos rfl, sadd_eq_self h]
  · rw [if_neg hk]

theorem applyCmd_idle_zAddDate {T : Store} {ty : ByteStr} {x : Nat} {sc : Int}
    (h : T.dateIdx ty x = some sc) : applyCmd T (Cmd.zAddDate ty x sc) = T := by
  refine Store.ext rfl rfl rfl ?_ rfl rfl
  funext k j
  simp only [applyCmd]
  by_cases hkj : k = ty ∧ j = x
  · obtain ⟨rfl, rfl⟩ := hkj
    rw [if_pos ⟨rfl, rfl⟩, h]
  · rw [if_neg hkj]

theorem applyCmd_idle_sAddTag {T : Store} {tg ty : ByteStr} {x : Nat}
    (h : x ∈ T.tagSet tg ty) : applyCmd T (Cmd.sAddTag tg ty x) = T := by
  refine Store.ext rfl rfl rfl rfl ?_ rfl
  funext u k
  simp only [applyCmd]
  by_cases huk : u = tg ∧ k = ty
  · obtain ⟨rfl, rfl⟩ := huk
    rw [if_pos ⟨rfl, rfl⟩, sadd_eq_self h]
  · rw [if_neg huk]

theorem applyCmds_only_tags : ∀ (l : List Cmd),
    (∀ c ∈ l, (∃ u k i, c = Cmd.sAddTag u k i) ∨ (∃ u k i, c = Cmd.sRemTag u k i)) →
    ∀ T : Store,
      (applyCmds T l).primary = T.primary ∧ (applyCmds T l).typeSet = T.typeSet ∧
      (applyCmds T l).titleIdx = T.titleIdx ∧ (applyCmds T l).dateIdx = T.dateIdx
  | [], _, T => ⟨rfl, rfl, rfl, rfl⟩
  | c :: t, h, T => by
    rw [applyCmds_cons]
    obtain ⟨p, ts, ti, di⟩ :=
      applyCmds_only_tags t (fun d hd => h d (List.mem_cons_of_mem _ hd)) (applyCmd T c)
    rcases h c (List.mem_cons_self _ _) with ⟨u, k, i, rfl⟩ | ⟨u, k, i, rfl⟩ <;>
      exact ⟨p, ts, ti, di⟩

theorem tagAdds_mem : ∀ (l : List ByteStr) (ty : ByteStr) (x : Nat) (T : Store) (t : ByteStr),
    t ∈ l →
    x ∈ (applyCmds T (l.map (fun u => Cmd.sAddTag (normalizeStringForIndex u) ty x))).tagSet
      (normalizeStringForIndex t) ty
  | [], _, _, _, _, ht => absurd ht (List.not_mem_nil _)
  | u :: rest, ty, x, T, t, ht => by
    rw [List.map_cons, applyCmds_cons]
    rcases List.mem_cons.1 ht with rfl | hrest
    · refine applyCmds_tagSet_mem _ _ _ _ _ ?_ ?_
      · intro hmem
        rw [List.mem_map] at hmem
        obtain ⟨v, _, hv⟩ := hmem
        exact Cmd.noConfusion hv
      · simp [applyCmd, mem_sadd]
    · exact tagAdds_mem rest ty x _ t hrest

theorem addModCommands_effects (T : Store) (m : Mod) (tag : ByteStr) :
    (applyCmds T (addModCommands m tag)).primary m.id = some m ∧
    m.id ∈ (applyCmds T (addModCommands m tag)).typeSet (GetModTypeFromTag tag) ∧
    autocompleteMember m ∈ (applyCmds T (addModCommands m tag)).titleIdx (GetModTypeFromTag tag) ∧
    (applyCmds T (addModCommands m tag)).dateIdx (GetModTypeFromTag tag) m.id =
      some m.dateUpdated ∧
    ∀ t ∈ m.tags,
      m.id ∈ (applyCmds T (addModCommands m tag)).tagSet (normalizeStringForIndex t)
        (GetModTypeFromTag tag) := by
  have hsplit : addModCommands m tag =
      [Cmd.setPrimary m.id m, Cmd.sAddType (GetModTypeFromTag tag) m.id,
       Cmd.zAddTitle (GetModTypeFromTag tag) (autocompleteMember m),
       Cmd.zAddDate (GetModTypeFromTag tag) m.id m.dateUpdated] ++
      m.tags.map
        (fun t => Cmd.sAddTag (normalizeStringForIndex t) (GetModTypeFromTag tag) m.id) := rfl
  have htags : ∀ c ∈ m.tags.map
      (fun t => Cmd.sAddTag (normalizeStringForIndex t) (GetModTypeFromTag tag) m.id),
      (∃ u k i, c = Cmd.sAddTag u k i) ∨ (∃ u k i, c = Cmd.sRemTag u k i) := by
    intro c hc
    rw [List.mem_map] at hc
    obtain ⟨t, _, rfl⟩ := hc
    exact Or.inl ⟨_, _, _, rfl⟩
  rw [hsplit, applyCmds_append]
  obtain ⟨hp, hts, hti, hdi⟩ := applyCmds_only_tags _ htags
    (applyCmds T [Cmd.setPrimary m.id m, Cmd.sAddType (GetModTypeFromTag tag) m.id,
      Cmd.zAddTitle (GetModTypeFromTag tag) (autocompleteMember m),
      Cmd.zAddDate (GetModTypeFromTag tag) m.id m.dateUpdated])
  refine ⟨?_, ?_, ?_, ?_, ?_⟩
  · rw [hp]; simp [applyCmds, applyCmd]
  · rw [hts]; simp [applyCmds, applyCmd, mem_sadd]
  · rw [hti]; simp [applyCmds, applyCmd, mem_sadd]
  · rw [hdi]; simp [applyCmds, applyCmd]
  · intro t ht
    exact tagAdds_mem m.tags (GetModTypeFromTag tag) m.id _ t ht

theorem removeModCommands_split (o : Mod) (tag : ByteStr) :
    removeModCommands o tag =
      [Cmd.delPrimary o.id, Cmd.sRemType (GetModTypeFromTag tag) o.id,
       Cmd.zRemTitle (GetModTypeFromTag tag) (autocompleteMember o),
       Cmd.zRemDate (GetModTypeFromTag tag) o.id] ++
      o.tags.map
        (fun t => Cmd.sRemTag (normalizeStringForIndex t) (GetModTypeFromTag tag) o.id) := rfl

theorem removeModCommands_tags_shape (o : Mod) (tag : ByteStr) :
    ∀ c ∈ o.tags.map
      (fun t => Cmd.sRemTag (normalizeStringForIndex t) (GetModTypeFromTag tag) o.id),
      (∃ u k i, c = Cmd.sAddTag u k i) ∨ (∃ u k i, c = Cmd.sRemTag u k i) := by
  intro c hc
  rw [List.mem_map] at hc
  obtain ⟨t, _, rfl⟩ := hc
  exact Or.inr ⟨_, _, _, rfl⟩

theorem removeModCommands_primary_none (T : Store) (o : Mod) (tag : ByteStr) :
    (applyCmds T (removeModCommands o tag)).primary o.id = none := by
  rw [removeModCommands_split, applyCmds_append]
  obtain ⟨hp, hts, hti, hdi⟩ := applyCmds_only_tags _ (removeModCommands_tags_shape o tag)
    (applyCmds T [Cmd.delPrimary o.id, Cmd.sRemType (GetModTypeFromTag tag) o.id,
      Cmd.zRemTitle (GetModTypeFromTag tag) (autocompleteMember o),
      Cmd.zRemDate (GetModTypeFromTag tag) o.id])
  rw [hp]
  simp [applyCmds, applyCmd]

theorem removeModCommands_typeSet_not_mem (T : Store) (o : Mod) (tag : ByteStr) :
    o.id ∉ (applyCmds T (removeModCommands o tag)).typeSet (GetModTypeFromTag tag) := by
  rw [removeModCommands_split, applyCmds_append]
  obtain ⟨hp, hts, hti, hdi⟩ := applyCmds_only_tags _ (removeModCommands_tags_shape o tag)
    (applyCmds T [Cmd.delPrimary o.id, Cmd.sRemType (GetModTypeFromTag tag) o.id,
      Cmd.zRemTitle (GetModTypeFromTag tag) (autocompleteMember o),
      Cmd.zRemDate (GetModTypeFromTag tag) o.id])
  rw [hts]
  simp [applyCmds, applyCmd, mem_srem]

/-- The removal phase issues only removal-kind commands. -/
theorem remPhaseCmds_kind {S : Store} {tag : ByteStr} {A : List Mod} {c : Cmd}
    (hc : c ∈ remPhaseCmds S tag A) :
    (∃ i, c = Cmd.delPrimary i) ∨ (∃ k i, c = Cmd.sRemType k i) ∨
    (∃ k mem, c = Cmd.zRemTitle k mem) ∨ (∃ k i, c = Cmd.zRemDate k i) ∨
    (∃ u k i, c = Cmd.sRemTag u k i) := by
  rw [remPhaseCmds, mem_concatMap] at hc
  obtain ⟨r, _, hcr⟩ := hc
  rw [removeOrDelCommands.eq_def] at hcr
  cases ho : S.primary r with
  | none =>
    rw [ho] at hcr
    rcases List.mem_cons.1 hcr with rfl | h
    · exact Or.inl ⟨r, rfl⟩
    · exact absurd h (List.not_mem_nil c)
  | some o =>
    rw [ho] at hcr
    rcases mem_removeModCommands.1 hcr with h | h | h | h | ⟨t, _, h⟩
    · exact Or.inl ⟨_, h⟩
    · exact Or.inr (Or.inl ⟨_, _, h⟩)
    · exact Or.inr (Or.inr (Or.inl ⟨_, _, h⟩))
    · exact Or.inr (Or.inr (Or.inr (Or.inl ⟨_, _, h⟩)))
    · exact Or.inr (Or.inr (Or.inr (Or.inr ⟨_, _, _, h.symm⟩)))

/-- The upsert phase issues only upsert commands and orphaned-tag SREMs. -/
theorem upsPhaseCmds_kind {S : Store} {tag : ByteStr} {A : List Mod} {c : Cmd}
    (hc : c ∈ upsPhaseCmds S tag A) :
    (∃ i m, c = Cmd.setPrimary i m) ∨ (∃ k i, c = Cmd.sAddType k i) ∨
    (∃ k mem, c = Cmd.zAddTitle k mem) ∨ (∃ k i sc, c = Cmd.zAddDate k i sc) ∨
    (∃ u k i, c = Cmd.sAddTag u k i) ∨ (∃ u k i, c = Cmd.sRemTag u k i) := by
  rw [upsPhaseCmds, mem_concatMap] at hc
  obtain ⟨m, _, hcm⟩ := hc
  rcases List.mem_append.1 hcm with horph | hadd
  · cases ho : S.primary m.id with
    | none => rw [ho] at horph; exact absurd horph (List.not_mem_nil c)
    | some o =>
      rw [ho] at horph
      obtain ⟨t, hco⟩ := mem_orphanCommands horph
      exact Or.inr (Or.inr (Or.inr (Or.inr (Or.inr ⟨_, _, _, hco.symm⟩))))
  · rcases mem_addModCommands.1 hadd with h | h | h | h | ⟨t, _, h⟩
    · exact Or.inl ⟨_, _, h⟩
    · exact Or.inr (Or.inl ⟨_, _, h⟩)
    · exact Or.inr (Or.inr (Or.inl ⟨_, _, h⟩))
    · exact Or.inr (Or.inr (Or.inr (Or.inl ⟨_, _, _, h⟩)))
    · exact Or.inr (Or.inr (Or.inr (Or.inr (Or.inl ⟨_, _, _, h.symm⟩))))

theorem upsPhase_no_delPrimary {S : Store} {tag : ByteStr} {A : List Mod} {i : Nat} :
    Cmd.delPrimary i ∉ upsPhaseCmds S tag A := by
  intro hc
  rcases upsPhaseCmds_kind hc with ⟨_, _, h⟩ | ⟨_, _, h⟩ | ⟨_, _, h⟩ | ⟨_, _, _, h⟩ |
    ⟨_, _, _, h⟩ | ⟨_, _, _, h⟩ <;> exact Cmd.noConfusion h

theorem upsPhase_no_sRemType {S : Store} {tag : ByteStr} {A : List Mod} {k : ByteStr} {i : Nat} :
    Cmd.sRemType k i ∉ upsPhaseCmds S tag A := by
  intro hc
  rcases upsPhaseCmds_kind hc with ⟨_, _, h⟩ | ⟨_, _, h⟩ | ⟨_, _, h⟩ | ⟨_, _, _, h⟩ |
    ⟨_, _, _, h⟩ | ⟨_, _, _, h⟩ <;> exact Cmd.noConfusion h

theorem upsPhase_no_zRemTitle {S : Store} {tag : ByteStr} {A : List Mod} {k mem : ByteStr} :
    Cmd.zRemTitle k mem ∉ upsPhaseCmds S tag A := by
  intro hc
  rcases upsPhaseCmds_kind hc with ⟨_, _, h⟩ | ⟨_, _, h⟩ | ⟨_, _, h⟩ | ⟨_, _, _, h⟩ |
    ⟨_, _, _, h⟩ | ⟨_, _, _, h⟩ <;> exact Cmd.noConfusion h

theorem upsPhase_no_zRemDate {S : Store} {tag : ByteStr} {A : List Mod} {k : ByteStr} {i : Nat} :
    Cmd.zRemDate k i ∉ upsPhaseCmds S tag A := by
  intro hc
  rcases upsPhaseCmds_kind hc with ⟨_, _, h⟩ | ⟨_, _, h⟩ | ⟨_, _, h⟩ | ⟨_, _, _, h⟩ |
    ⟨_, _, _, h⟩ | ⟨_, _, _, h⟩ <;> exact Cmd.noConfusion h

/-- A primary-record write queued by the upsert phase targets a listed id. -/
theorem upsPhase_setPrimary_ids {S : Store} {tag : ByteStr} {A : List Mod} {x : Nat} {m' : Mod}
    (h : Cmd.setPrimary x m' ∈ upsPhaseCmds S tag A) : x ∈ A.map Mod.id := by
  rw [upsPhaseCmds, mem_concatMap] at h
  obtain ⟨m, hm, hcm⟩ := h
  rcases List.mem_append.1 hcm with horph | hadd
  · cases ho : S.primary m.id with
    | none => rw [ho] at horph; exact absurd horph (List.not_mem_nil _)
    | some o =>
      rw [ho] at horph
      obtain ⟨t, hco⟩ := mem_orphanCommands horph
      exact Cmd.noConfusion hco
  · rcases mem_addModCommands.1 hadd with h | h | h | h | ⟨t, _, h⟩
    · obtain ⟨h1, -⟩ := Cmd.setPrimary.inj h
      exact h1 ▸ List.mem_map.2 ⟨m, hm, rfl⟩
    · exact Cmd.noConfusion h
    · exact Cmd.noConfusion h
    · exact Cmd.noConfusion h
    · exact Cmd.noConfusion h

/-- A type-set add queued by the upsert phase targets a listed id. -/
theorem upsPhase_sAddType_ids {S : Store} {tag : ByteStr} {A : List Mod} {k : ByteStr} {x : Nat}
    (h : Cmd.sAddType k x ∈ upsPhaseCmds S tag A) : x ∈ A.map Mod.id := by
  rw [upsPhaseCmds, mem_concatMap] at h
  obtain ⟨m, hm, hcm⟩ := h
  rcases List.mem_append.1 hcm with horph | hadd
  · cases ho : S.primary m.id with
    | none => rw [ho] at horph; exact absurd horph (List.not_mem_nil _)
    | some o =>
      rw [ho] at horph
      obtain ⟨t, hco⟩ := mem_orphanCommands horph
      exact Cmd.noConfusion hco
  · rcases mem_addModCommands.1 hadd with h | h | h | h | ⟨t, _, h⟩
    · exact Cmd.noConfusion h
    · obtain ⟨-, h2⟩ := Cmd.sAddType.inj h
      exact h2 ▸ List.mem_map.2 ⟨m, hm, rfl⟩
    · exact Cmd.noConfusion h
    · exact Cmd.noConfusion h
    · exact Cmd.noConfusion h

/-- A date-index add queued by the upsert phase targets a listed id. -/
theorem upsPhase_zAddDate_ids {S : Store} {tag : ByteStr} {A : List Mod} {k : ByteStr} {x : Nat}
    {sc : Int} (h : Cmd.zAddDate k x sc ∈ upsPhaseCmds S tag A) : x ∈ A.map Mod.id := by
  rw [upsPhaseCmds, mem_concatMap] at h
  obtain ⟨m, hm, hcm⟩ := h
  rcases List.mem_append.1 hcm with horph | hadd
  · cases ho : S.primary m.id with
    | none => rw [ho] at horph; exact absurd horph (List.not_mem_nil _)
    | some o =>
      rw [ho] at horph
      obtain ⟨t, hco⟩ := mem_orphanCommands horph
      exact Cmd.noConfusion hco
  · rcases mem_addModCommands.1 hadd with h | h | h | h | ⟨t, _, h⟩
    · exact Cmd.noConfusion h
    · exact Cmd.noConfusion h
    · exact Cmd.noConfusion h
    · obtain ⟨-, h2, -⟩ := Cmd.zAddDate.inj h
      exact h2 ▸ List.mem_map.2 ⟨m, hm, rfl⟩
    · exact Cmd.noConfusion h

/-- A tag-set SREM queued by the upsert phase (orphan cleanup) targets a
listed id, by well-formedness of the read store. -/
theorem upsPhase_sRemTag_ids {S : Store} {tag : ByteStr} {A : List Mod} {u k : ByteStr} {x : Nat}
    (hwf : PrimConsistent S) (h : Cmd.sRemTag u k x ∈ upsPhaseCmds S tag A) :
    x ∈ A.map Mod.id := by
  obtain ⟨m, hm, hsh⟩ := upsPhaseCmds_shape hwf h
  rcases hsh with h | h | h | h | ⟨t, h⟩ | ⟨t, h⟩
  · exact Cmd.noConfusion h
  · exact Cmd.noConfusion h
  · exact Cmd.noConfusion h
  · exact Cmd.noConfusion h
  · exact Cmd.noConfusion h
  · obtain ⟨-, -, h3⟩ := Cmd.sRemTag.inj h
    exact h3 ▸ List.mem_map.2 ⟨m, hm, rfl⟩

/-- Orphan cleanup of a record against itself removes nothing. -/
theorem orphanCommands_self (m : Mod) (tag : ByteStr) : orphanCommands m m tag = [] := by
  rw [orphanCommands]
  have hf : List.filter (fun t => decide (t ∉ List.map normalizeStringForIndex m.tags))
      (List.map normalizeStringForIndex m.tags) = [] := by
    rw [List.filter_eq_nil]
    intro t ht
    simpa using ht
  rw [hf, List.map_nil]

/-- Two listed mods with the same id are equal when the listed ids are
duplicate-free. -/
theorem nodup_map_id_unique {A : List Mod} (hnd : (A.map Mod.id).Nodup) {m m' : Mod}
    (hm : m ∈ A) (hm' : m' ∈ A) (hid : m.id = m'.id) : m = m' :=
  List.inj_on_of_nodup_map hnd hm hm' hid

theorem remPhase_no_sAddType {S : Store} {tag : ByteStr} {A : List Mod} {k : ByteStr} {i : Nat} :
    Cmd.sAddType k i ∉ remPhaseCmds S tag A := by
  intro hc
  rcases remPhaseCmds_kind hc with ⟨_, h⟩ | ⟨_, _, h⟩ | ⟨_, _, h⟩ | ⟨_, _, h⟩ | ⟨_, _, _, h⟩ <;>
    exact Cmd.noConfusion h

theorem remPhase_no_setPrimary {S : Store} {tag : ByteStr} {A : List Mod} {i : Nat} {m : Mod} :
    Cmd.setPrimary i m ∉ remPhaseCmds S tag A := by
  intro hc
  rcases remPhaseCmds_kind hc with ⟨_, h⟩ | ⟨_, _, h⟩ | ⟨_, _, h⟩ | ⟨_, _, h⟩ | ⟨_, _, _, h⟩ <;>
    exact Cmd.noConfusion h

/-- Decomposition of the removal phase around one removed id. -/
theorem remPhase_split {S : Store} {tag : ByteStr} {A : List Mod} {x : Nat}
    (hx : x ∈ S.typeSet (GetModTypeFromTag tag)) (hnx : x ∉ A.map Mod.id) :
    ∃ f1 f2 : List Nat,
      remPhaseCmds S tag A =
        concatMap (fun r => removeOrDelCommands (S.primary r) r tag) f1 ++
        (removeOrDelCommands (S.primary x) x tag ++
         concatMap (fun r => removeOrDelCommands (S.primary r) r tag) f2) ∧
      (∀ c ∈ concatMap (fun r => removeOrDelCommands (S.primary r) r tag) f2,
        c ∈ remPhaseCmds S tag A) := by
  have hmem : x ∈ (S.typeSet (GetModTypeFromTag tag)).filter (fun r => r ∉ A.map Mod.id) := by
    rw [List.mem_filter]
    exact ⟨hx, by simpa using hnx⟩
  obtain ⟨f1, f2, hspl⟩ := List.append_of_mem hmem
  refine ⟨f1, f2, ?_, ?_⟩
  · rw [remPhaseCmds, hspl, concatMap_append]
    rfl
  · intro c hc
    rw [mem_concatMap] at hc
    obtain ⟨r, hr, hcr⟩ := hc
    rw [remPhaseCmds, mem_concatMap]
    exact ⟨r, by rw [hspl]; simp [hr], hcr⟩

/-- After the removal phase, an id that was indexed under the type but is
absent from the listing has no primary record (the stored record was deleted,
or none existed and the bare DEL was a no-op). -/
theorem remPhase_primary_stale {S : Store} {tag : ByteStr} {A : List Mod}
    (hwf : PrimConsistent S) {x : Nat} (hx : x ∈ S.typeSet (GetModTypeFromTag tag))
    (hnx : x ∉ A.map Mod.id) :
    (applyCmds S (remPhaseCmds S tag A)).primary x = none := by
  obtain ⟨f1, f2, hsplit, hsub⟩ := remPhase_split (A := A) hx hnx
  rw [hsplit, applyCmds_append, applyCmds_append]
  have hT2 : (applyCmds
      (applyCmds S (concatMap (fun r => removeOrDelCommands (S.primary r) r tag) f1))
      (removeOrDelCommands (S.primary x) x tag)).primary x = none := by
    cases ho : S.primary x with
    | none =>
      show (applyCmds _ [Cmd.delPrimary x]).primary x = none
      simp [applyCmds, applyCmd]
    | some o =>
      have hid := hwf x o ho
      show (applyCmds _ (removeModCommands o tag)).primary x = none
      rw [← hid]
      exact removeModCommands_primary_none _ o tag
  refine applyCmds_primary_none _ _ _ ?_ hT2
  intro m hm
  exact remPhase_no_setPrimary (hsub _ hm)

/-- The removal phase leaves the primary record of any id untouched when the
id is not an indexed-but-unlisted id. -/
theorem remPhase_primary_frame {S : Store} {tag : ByteStr} {A : List Mod}
    (hwf : PrimConsistent S) {x : Nat}
    (hx : x ∉ S.typeSet (GetModTypeFromTag tag) ∨ x ∈ A.map Mod.id) :
    (applyCmds S (remPhaseCmds S tag A)).primary x = S.primary x := by
  refine applyCmds_primary_frame _ _ _ ?_
  intro c hc hw
  obtain ⟨r, hr1, hr2, hbr⟩ := remPhaseCmds_shape hwf hc
  have hrx : r = x := by
    rcases hbr with ⟨_, rfl⟩ | ⟨o, _, hbr2⟩
    · simpa [cmdWritesPrimary] using hw
    · rcases hbr2 with rfl | rfl | ⟨mem, rfl⟩ | rfl | ⟨t, rfl⟩ <;>
        simpa [cmdWritesPrimary] using hw
  subst hrx
  rcases hx with hx | hx
  · exact hx hr1
  · exact hr2 hx

/-- Membership in the type set after the removal phase: the ids removed are
exactly those indexed under the type, absent from the listing, and holding a
stored record. -/
theorem remPhase_typeSet_iff {S : Store} {tag : ByteStr} {A : List Mod}
    (hwf : PrimConsistent S) (x : Nat) :
    x ∈ (applyCmds S (remPhaseCmds S tag A)).typeSet (GetModTypeFromTag tag) ↔
      x ∈ S.typeSet (GetModTypeFromTag tag) ∧ (x ∈ A.map Mod.id ∨ S.primary x = none) := by
  constructor
  · intro hmem
    by_cases hxs : x ∈ S.typeSet (GetModTypeFromTag tag)
    · refine ⟨hxs, ?_⟩
      by_cases hxi : x ∈ A.map Mod.id
      · exact Or.inl hxi
      · right
        cases ho : S.primary x with
        | none => rfl
        | some o =>
          exfalso
          obtain ⟨f1, f2, hsplit, hsub⟩ := remPhase_split (A := A) hxs hxi
          rw [hsplit, applyCmds_append, applyCmds_append] at hmem
          have hid := hwf x o ho
          have h2 : x ∉ (applyCmds
              (applyCmds S (concatMap (fun r => removeOrDelCommands (S.primary r) r tag) f1))
              (removeOrDelCommands (S.primary x) x tag)).typeSet (GetModTypeFromTag tag) := by
            rw [ho]
            show x ∉ (applyCmds _ (removeModCommands o tag)).typeSet (GetModTypeFromTag tag)
            rw [← hid]
            exact removeModCommands_typeSet_not_mem _ o tag
          exact applyCmds_typeSet_not_mem _ _ _ _
            (fun hadd => remPhase_no_sAddType (hsub _ hadd)) h2 hmem
    · exact absurd hmem (applyCmds_typeSet_not_mem _ _ _ _
        (fun hadd => remPhase_no_sAddType hadd) hxs)
  · rintro ⟨hxs, hor⟩
    refine applyCmds_typeSet_mem _ _ _ _ ?_ hxs
    intro hcmem
    obtain ⟨r, hr1, hr2, hbr⟩ := remPhaseCmds_shape hwf hcmem
    rcases hbr with ⟨_, heq⟩ | ⟨o, ho, hbr2⟩
    · exact Cmd.noConfusion heq
    · rcases hbr2 with h | h | ⟨mem, h⟩ | h | ⟨t, h⟩
      · exact Cmd.noConfusion h
      · obtain ⟨-, h2⟩ := Cmd.sRemType.inj h
        subst h2
        rcases hor with hxi | hnone
        · exact hr2 hxi
        · rw [hnone] at ho; exact Option.noConfusion ho
      · exact Cmd.noConfusion h
      · exact Cmd.noConfusion h
      · exact Cmd.noConfusion h

theorem upsPhase_cons (R : Store) (tag : ByteStr) (m : Mod) (rest : List Mod) :
    upsPhaseCmds R tag (m :: rest) =
      ((match R.primary m.id with
        | some o => orphanCommands o m tag
        | none => []) ++ addModCommands m tag) ++ upsPhaseCmds R tag rest := rfl

/-- Decomposition of the upsert phase around one listed mod. -/
theorem upsPhase_split (R : Store) (tag : ByteStr) {A : List Mod} {m : Mod} (hm : m ∈ A) :
    ∃ A1 A2, A = A1 ++ m :: A2 ∧
      upsPhaseCmds R tag A =
        upsPhaseCmds R tag A1 ++
        (((match R.primary m.id with
           | some o => orphanCommands o m tag
           | none => []) ++ addModCommands m tag) ++ upsPhaseCmds R tag A2) := by
  obtain ⟨A1, A2, rfl⟩ := List.append_of_mem hm
  refine ⟨A1, A2, rfl, ?_⟩
  simp only [upsPhaseCmds]
  rw [concatMap_append]
  rfl

/-- A primary write queued by the upsert phase stores the record under its
own id. -/
theorem upsPhase_setPrimary_wf {R : Store} {tag : ByteStr} {A : List Mod} {i : Nat} {m : Mod}
    (h : Cmd.setPrimary i m ∈ upsPhaseCmds R tag A) : m.id = i := by
  rw [upsPhaseCmds, mem_concatMap] at h
  obtain ⟨m', hm', hcm⟩ := h
  rcases List.mem_append.1 hcm with horph | hadd
  · cases ho : R.primary m'.id with
    | none => rw [ho] at horph; exact absurd horph (List.not_mem_nil _)
    | some o =>
      rw [ho] at horph
      obtain ⟨t, hco⟩ := mem_orphanCommands horph
      exact Cmd.noConfusion hco
  · rcases mem_addModCommands.1 hadd with h | h | h | h | ⟨t, _, h⟩
    · obtain ⟨h1, h2⟩ := Cmd.setPrimary.inj h
      rw [h2, h1]
    · exact Cmd.noConfusion h
    · exact Cmd.noConfusion h
    · exact Cmd.noConfusion h
    · exact Cmd.noConfusion h

/-- After the upsert phase, a listed id holds one of its listed records (the
last listed version with that id). -/
theorem upsPhase_primary_some : ∀ (A : List Mod) (R : Store) (tag : ByteStr) (T : Store)
    (x : Nat), x ∈ A.map Mod.id →
    ∃ m, m ∈ A ∧ m.id = x ∧ (applyCmds T (upsPhaseCmds R tag A)).primary x = some m
  | [], _, _, _, x, hx => absurd hx (by simp)
  | m0 :: rest, R, tag, T, x, hx => by
    rw [upsPhase_cons, applyCmds_append]
    by_cases hxr : x ∈ rest.map Mod.id
    · obtain ⟨m, hm, hid, heq⟩ := upsPhase_primary_some rest R tag _ x hxr
      exact ⟨m, List.mem_cons_of_mem _ hm, hid, heq⟩
    · have hx0 : x = m0.id := by
        rw [List.map_cons] at hx
        rcases List.mem_cons.1 hx with h | h
        · exact h
        · exact absurd h hxr
      subst hx0
      refine ⟨m0, List.mem_cons_self _ _, rfl, ?_⟩
      have hfr : ∀ c ∈ upsPhaseCmds R tag rest, ¬ cmdWritesPrimary m0.id c := by
        intro c hc hw
        cases c with
        | setPrimary i m' =>
          have hi : i = m0.id := hw
          subst hi
          exact hxr (upsPhase_setPrimary_ids hc)
        | delPrimary i =>
          have hi : i = m0.id := hw
          subst hi
          exact upsPhase_no_delPrimary hc
        | sAddType k i => exact hw.elim
        | sRemType k i => exact hw.elim
        | zAddTitle k mem => exact hw.elim
        | zRemTitle k mem => exact hw.elim
        | zAddDate k i sc => exact hw.elim
        | zRemDate k i => exact hw.elim
        | sAddTag u k i => exact hw.elim
        | sRemTag u k i => exact hw.elim
      rw [applyCmds_primary_frame _ _ _ hfr, applyCmds_append]
      exact (addModCommands_effects _ m0 tag).1

/-- After the upsert phase, every listed id is in the type's ID set. -/
theorem upsPhase_typeSet_mem : ∀ (A : List Mod) (R : Store) (tag : ByteStr) (T : Store)
    (x : Nat), x ∈ A.map Mod.id →
    x ∈ (applyCmds T (upsPhaseCmds R tag A)).typeSet (GetModTypeFromTag tag)
  | [], _, _, _, x, hx => absurd hx (by simp)
  | m0 :: rest, R, tag, T, x, hx => by
    rw [upsPhase_cons, applyCmds_append]
    by_cases hxr : x ∈ rest.map Mod.id
    · exact upsPhase_typeSet_mem rest R tag _ x hxr
    · have hx0 : x = m0.id := by
        rw [List.map_cons] at hx
        rcases List.mem_cons.1 hx with h | h
        · exact h
        · exact absurd h hxr
      subst hx0
      refine applyCmds_typeSet_mem _ _ _ _ (fun hc => upsPhase_no_sRemType hc) ?_
      rw [applyCmds_append]
      exact (addModCommands_effects _ m0 tag).2.1

theorem applyProcessType_typeSet_iff (S : Store) (tag : ByteStr) (A : List Mod)
    (hwf : PrimConsistent S) (x : Nat) :
    x ∈ (applyProcessType S tag A).typeSet (GetModTypeFromTag tag) ↔
      (x ∈ A.map Mod.id ∨
        (x ∈ S.typeSet (GetModTypeFromTag tag) ∧ x ∉ A.map Mod.id ∧ S.primary x = none)) := by
  rw [applyProcessType, processTypeCommands, applyCmds_append]
  constructor
  · intro hmem
    by_cases hxi : x ∈ A.map Mod.id
    · exact Or.inl hxi
    · right
      have hTr : x ∈ (applyCmds S (remPhaseCmds S tag A)).typeSet (GetModTypeFromTag tag) := by
        by_contra hno
        exact applyCmds_typeSet_not_mem _ _ _ _
          (fun hc => hxi (upsPhase_sAddType_ids hc)) hno hmem
      obtain ⟨h1, h2⟩ := (remPhase_typeSet_iff hwf x).1 hTr
      rcases h2 with h2 | h2
      · exact absurd h2 hxi
      · exact ⟨h1, hxi, h2⟩
  · intro h
    rcases h with hxi | ⟨h1, h2, h3⟩
    · exact upsPhase_typeSet_mem A S tag _ x hxi
    · exact applyCmds_typeSet_mem _ _ _ _ (fun hc => upsPhase_no_sRemType hc)
        ((remPhase_typeSet_iff hwf x).2 ⟨h1, Or.inr h3⟩)

theorem applyProcessType_primary_some (S : Store) (tag : ByteStr) (A : List Mod) (x : Nat)
    (hx : x ∈ A.map Mod.id) :
    ∃ m, m ∈ A ∧ m.id = x ∧ (applyProcessType S tag A).primary x = some m := by
  rw [applyProcessType, processTypeCommands, applyCmds_append]
  exact upsPhase_primary_some A S tag _ x hx

theorem applyProcessType_primary_stale (S : Store) (tag : ByteStr) (A : List Mod)
    (hwf : PrimConsistent S) (x : Nat) (hx : x ∈ S.typeSet (GetModTypeFromTag tag))
    (hnx : x ∉ A.map Mod.id) : (applyProcessType S tag A).primary x = none := by
  rw [applyProcessType, processTypeCommands, applyCmds_append]
  exact applyCmds_primary_none _ _ _ (fun m hm => hnx (upsPhase_setPrimary_ids hm))
    (remPhase_primary_stale hwf hx hnx)

theorem applyProcessType_primary_frame (S : Store) (tag : ByteStr) (A : List Mod)
    (hwf : PrimConsistent S) (x : Nat) (hnx : x ∉ A.map Mod.id)
    (hxs : x ∉ S.typeSet (GetModTypeFromTag tag)) :
    (applyProcessType S tag A).primary x = S.primary x := by
  rw [applyProcessType, processTypeCommands, applyCmds_append]
  have hfr : ∀ c ∈ upsPhaseCmds S tag A, ¬ cmdWritesPrimary x c := by
    intro c hc hw
    cases c with
    | setPrimary i m' =>
      have hi : i = x := hw
      subst hi
      exact hnx (upsPhase_setPrimary_ids hc)
    | delPrimary i =>
      have hi : i = x := hw
      subst hi
      exact upsPhase_no_delPrimary hc
    | sAddType k i => exact hw.elim
    | sRemType k i => exact hw.elim
    | zAddTitle k mem => exact hw.elim
    | zRemTitle k mem => exact hw.elim
    | zAddDate k i sc => exact hw.elim
    | zRemDate k i => exact hw.elim
    | sAddTag u k i => exact hw.elim
    | sRemTag u k i => exact hw.elim
  rw [applyCmds_primary_frame _ _ _ hfr]
  exact remPhase_primary_frame hwf (Or.inl hxs)

theorem applyProcessType_title_mem (S : Store) (tag : ByteStr) (A : List Mod) {m : Mod}
    (hm : m ∈ A) :
    autocompleteMember m ∈ (applyProcessType S tag A).titleIdx (GetModTypeFromTag tag) := by
  rw [applyProcessType, processTypeCommands, applyCmds_append]
  obtain ⟨A1, A2, hA, hups⟩ := upsPhase_split S tag hm
  rw [hups, applyCmds_append, applyCmds_append]
  refine applyCmds_titleIdx_mem _ _ _ _ (fun hc => upsPhase_no_zRemTitle hc) ?_
  rw [applyCmds_append]
  exact (addModCommands_effects _ m tag).2.2.1

theorem applyProcessType_date_eq (S : Store) (tag : ByteStr) (A : List Mod)
    (hnd : (A.map Mod.id).Nodup) {m : Mod} (hm : m ∈ A) :
    (applyProcessType S tag A).dateIdx (GetModTypeFromTag tag) m.id = some m.dateUpdated := by
  rw [applyProcessType, processTypeCommands, applyCmds_append]
  obtain ⟨A1, A2, hA, hups⟩ := upsPhase_split S tag hm
  have hnotA2 : m.id ∉ A2.map Mod.id := by
    rw [hA, List.map_append, List.map_cons] at hnd
    exact (List.nodup_cons.1 (hnd.of_append_right)).1
  rw [hups, applyCmds_append, applyCmds_append]
  rw [applyCmds_dateIdx_point _ _ _ _ (fun sc hc => hnotA2 (upsPhase_zAddDate_ids hc))
    (fun hc => upsPhase_no_zRemDate hc)]
  rw [applyCmds_append]
  exact (addModCommands_effects _ m tag).2.2.2.1

theorem applyProcessType_tag_mem (S : Store) (tag : ByteStr) (A : List Mod)
    (hwf : PrimConsistent S) (hnd : (A.map Mod.id).Nodup) {m : Mod} (hm : m ∈ A)
    {t : ByteStr} (ht : t ∈ m.tags) :
    m.id ∈ (applyProcessType S tag A).tagSet (normalizeStringForIndex t)
      (GetModTypeFromTag tag) := by
  rw [applyProcessType, processTypeCommands, applyCmds_append]
  obtain ⟨A1, A2, hA, hups⟩ := upsPhase_split S tag hm
  have hnotA2 : m.id ∉ A2.map Mod.id := by
    rw [hA, List.map_append, List.map_cons] at hnd
    exact (List.nodup_cons.1 (hnd.of_append_right)).1
  rw [hups, applyCmds_append, applyCmds_append]
  refine applyCmds_tagSet_mem _ _ _ _ _ (fun hc => hnotA2 (upsPhase_sRemTag_ids hwf hc)) ?_
  rw [applyCmds_append]
  exact (addModCommands_effects _ m tag).2.2.2.2 t ht

/-- Every keyed command of a type's processing uses that type's key. -/
theorem processTypeCommands_type_key {S : Store} {tag : ByteStr} {A : List Mod} {ty' : ByteStr}
    (hty : ty' ≠ GetModTypeFromTag tag) :
    ∀ c ∈ processTypeCommands S tag A, ¬ cmdTouchesType ty' c := by
  intro c hc htouch
  rcases List.mem_append.1 hc with hr | hu
  · rw [remPhaseCmds, mem_concatMap] at hr
    obtain ⟨r, _, hcr⟩ := hr
    rw [removeOrDelCommands.eq_def] at hcr
    cases ho : S.primary r with
    | none =>
      rw [ho] at hcr
      rcases List.mem_cons.1 hcr with rfl | h
      · exact htouch
      · exact absurd h (List.not_mem_nil c)
    | some o =>
      rw [ho] at hcr
      rcases mem_removeModCommands.1 hcr with rfl | rfl | rfl | rfl | ⟨t, _, heq⟩
      · exact htouch
      · exact hty htouch.symm
      · exact hty htouch.symm
      · exact hty htouch.symm
      · rw [← heq] at htouch
        exact hty htouch.symm
  · rw [upsPhaseCmds, mem_concatMap] at hu
    obtain ⟨m, _, hcm⟩ := hu
    rcases List.mem_append.1 hcm with horph | hadd
    · cases ho : S.primary m.id with
      | none => rw [ho] at horph; exact absurd horph (List.not_mem_nil c)
      | some o =>
        rw [ho] at horph
        obtain ⟨t, heq⟩ := mem_orphanCommands horph
        rw [← heq] at htouch
        exact hty htouch.symm
    · rcases mem_addModCommands.1 hadd with rfl | rfl | rfl | rfl | ⟨t, _, heq⟩
      · exact htouch
      · exact hty htouch.symm
      · exact hty htouch.symm
      · exact hty htouch.symm
      · rw [← heq] at htouch
        exact hty htouch.symm

/-- One type's processing leaves every differently-keyed index untouched. -/
theorem applyProcessType_frame_other (S : Store) (tag : ByteStr) (A : List Mod) (ty' : ByteStr)
    (hty : ty' ≠ GetModTypeFromTag tag) :
    (applyProcessType S tag A).typeSet ty' = S.typeSet ty' ∧
    (applyProcessType S tag A).titleIdx ty' = S.titleIdx ty' ∧
    (∀ j, (applyProcessType S tag A).dateIdx ty' j = S.dateIdx ty' j) ∧
    (∀ t, (applyProcessType S tag A).tagSet t ty' = S.tagSet t ty') := by
  have h := processTypeCommands_type_key (S := S) (A := A) hty
  exact ⟨applyCmds_typeSet_frame _ _ _ h, applyCmds_titleIdx_frame _ _ _ h,
    applyCmds_dateIdx_frame _ _ _ h, applyCmds_tagSet_frame _ _ _ h⟩

theorem applyCmds_primConsistent : ∀ (l : List Cmd),
    (∀ c ∈ l, ∀ i m, c = Cmd.setPrimary i m → m.id = i) →
    ∀ S : Store, PrimConsistent S → PrimConsistent (applyCmds S l)
  | [], _, _, h => h
  | c :: t, hl, S, h => by
    rw [applyCmds_cons]
    refine applyCmds_primConsistent t (fun d hd => hl d (List.mem_cons_of_mem _ hd)) _ ?_
    intro r m' hrm
    cases c with
    | setPrimary i m =>
      simp only [applyCmd] at hrm
      by_cases hr : r = i
      · rw [if_pos hr] at hrm
        have hm := Option.some.inj hrm
        subst hm
        rw [hr]
        exact hl _ (List.mem_cons_self _ _) i m rfl
      · rw [if_neg hr] at hrm
        exact h r m' hrm
    | delPrimary i =>
      simp only [applyCmd] at hrm
      by_cases hr : r = i
      · rw [if_pos hr] at hrm
        exact Option.noConfusion hrm
      · rw [if_neg hr] at hrm
        exact h r m' hrm
    | sAddType k i => exact h r m' hrm
    | sRemType k i => exact h r m' hrm
    | zAddTitle k mem => exact h r m' hrm
    | zRemTitle k mem => exact h r m' hrm
    | zAddDate k i sc => exact h r m' hrm
    | zRemDate k i => exact h r m' hrm
    | sAddTag u k i => exact h r m' hrm
    | sRemTag u k i => exact h r m' hrm

theorem applyProcessType_primConsistent (S : Store) (tag : ByteStr) (A : List Mod)
    (hwf : PrimConsistent S) : PrimConsistent (applyProcessType S tag A) := by
  rw [applyProcessType]
  refine applyCmds_primConsistent _ ?_ _ hwf
  intro c hc i m hcm
  subst hcm
  rcases List.mem_append.1 hc with hr | hu
  · exact absurd hr remPhase_no_setPrimary
  · exact upsPhase_setPrimary_wf hu

/-- C6: the full-sync type-processing step is idempotent — re-running it
against the same unchanged listing leaves the store (primary records and all
four index families) exactly as after the first run, for any well-formed
starting store and any listing with duplicate-free ids (a listing of one
source snapshot). -/
theorem fullSync_type_step_idempotent (S : Store) (tag : ByteStr) (A : List Mod)
    (hwf : PrimConsistent S) (hnd : (A.map Mod.id).Nodup) :
    applyProcessType (applyProcessType S tag A) tag A = applyProcessType S tag A := by
  set S1 := applyProcessType S tag A with hS1
  rw [show applyProcessType S1 tag A = applyCmds S1 (processTypeCommands S1 tag A) from rfl]
  refine applyCmds_idle _ _ ?_
  intro c hc
  rw [processTypeCommands] at hc
  rcases List.mem_append.1 hc with hr | hu
  · have hwf1 : PrimConsistent S1 := applyProcessType_primConsistent S tag A hwf
    obtain ⟨r, hr1, hr2, hbr⟩ := remPhaseCmds_shape hwf1 hr
    have hnone : S1.primary r = none := by
      rcases (applyProcessType_typeSet_iff S tag A hwf r).1 hr1 with h | ⟨h1, h2, h3⟩
      · exact absurd h hr2
      · exact applyProcessType_primary_stale S tag A hwf r h1 h2
    rcases hbr with ⟨h0, rfl⟩ | ⟨o, ho, hbr2⟩
    · exact applyCmd_idle_delPrimary hnone
    · rw [hnone] at ho
      exact Option.noConfusion ho
  · rw [upsPhaseCmds, mem_concatMap] at hu
    obtain ⟨m, hm, hcm⟩ := hu
    have hsome : S1.primary m.id = some m := by
      obtain ⟨m', hm', hid', heq⟩ := applyProcessType_primary_some S tag A m.id
        (List.mem_map.2 ⟨m, hm, rfl⟩)
      have hmm : m' = m := nodup_map_id_unique hnd hm' hm hid'
      rw [heq, hmm]
    rcases List.mem_append.1 hcm with horph | hadd
    · rw [hsome] at horph
      simp only [orphanCommands_self] at horph
      exact absurd horph (List.not_mem_nil c)
    · rcases mem_addModCommands.1 hadd with rfl | rfl | rfl | rfl | ⟨t, ht, heq⟩
      · exact applyCmd_idle_setPrimary hsome
      · exact applyCmd_idle_sAddType
          ((applyProcessType_typeSet_iff S tag A hwf m.id).2
            (Or.inl (List.mem_map.2 ⟨m, hm, rfl⟩)))
      · exact applyCmd_idle_zAddTitle (applyProcessType_title_mem S tag A hm)
      · exact applyCmd_idle_zAddDate (applyProcessType_date_eq S tag A hnd hm)
      · rw [← heq]
        exact applyCmd_idle_sAddTag (applyProcessType_tag_mem S tag A hwf hnd hm ht)

/-- C6 witness: the idempotence theorem applied to the empty store and a
one-mod listing. -/
theorem fullSync_type_step_idempotent_witness :
    applyProcessType (applyProcessType emptyStore mapTagB [mapMod500]) mapTagB [mapMod500] =
      applyProcessType emptyStore mapTagB [mapMod500] :=
  fullSync_type_step_idempotent emptyStore mapTagB [mapMod500]
    (fun _ _ h => Option.noConfusion h) (by decide)

/-- C1 counterexample: starting from the empty store, a single Full
Reconciliation cycle in which the source returns the same mod (id 1, tagged
both Map and Script) in both per-type listings leaves id 1 a member of both
the map and the script type-ID sets simultaneously — invariant I2 fails on a
reachable state. -/
theorem fullSync_exclusivity_claim_false :
    1 ∈ (runFullSync emptyStore false (some [modBothTags])
          (some [modBothTags])).typeSet (bs "map") ∧
    1 ∈ (runFullSync emptyStore false (some [modBothTags])
          (some [modBothTags])).typeSet (bs "script") := by
  decide

/-- C1 (amended): after a Full Reconciliation cycle from a well-formed store
whose map-type index holds only ids with stored records, if the two fetched
listings have disjoint ID sets then no id belongs to both the map and the
script type-ID sets; exclusivity can fail when the listings overlap (see the
counterexample) and after incremental cycles that reclassify an item. -/
theorem fullSync_exclusivity (S : Store) (Am As : List Mod) (hwf : PrimConsistent S)
    (hwfM : ∀ x ∈ S.typeSet (bs "map"), S.primary x ≠ none)
    (hdisj : ∀ x, x ∈ Am.map Mod.id → x ∉ As.map Mod.id) (x : Nat) :
    ¬(x ∈ (runFullSync S false (some Am) (some As)).typeSet (bs "map") ∧
      x ∈ (runFullSync S false (some Am) (some As)).typeSet (bs "script")) := by
  rintro ⟨hxm, hxs⟩
  have hkey_m : GetModTypeFromTag mapTagB = bs "map" := by decide
  have hkey_s : GetModTypeFromTag scriptTagB = bs "script" := by decide
  have htySet : ∀ k, (runFullSync S false (some Am) (some As)).typeSet k =
      (applyProcessType (applyProcessType S mapTagB Am) scriptTagB As).typeSet k := by
    intro k
    rw [runFullSync]
    rw [if_neg (by decide : ¬ ((false : Bool) = true))]
    dsimp only
    simp only [eq_self_iff_true, if_true, true_and]
    by_cases hcond : maxUpdOf Am ⊔ maxUpdOf As > 0
    · rw [if_pos hcond]
    · rw [if_neg hcond]
  rw [htySet] at hxm hxs
  have hfr := (applyProcessType_frame_other (applyProcessType S mapTagB Am) scriptTagB As
    (bs "map") (by decide)).1
  rw [hfr] at hxm
  have hxm' : x ∈ Am.map Mod.id := by
    rcases (applyProcessType_typeSet_iff S mapTagB Am hwf x).1
        (by rw [hkey_m]; exact hxm) with h | ⟨h1, h2, h3⟩
    · exact h
    · exact absurd h3 (hwfM x (by rwa [hkey_m] at h1))
  have hwf1 : PrimConsistent (applyProcessType S mapTagB Am) :=
    applyProcessType_primConsistent S mapTagB Am hwf
  rcases (applyProcessType_typeSet_iff (applyProcessType S mapTagB Am) scriptTagB As hwf1 x).1
      (by rw [hkey_s]; exact hxs) with h | ⟨h1, h2, h3⟩
  · exact hdisj x hxm' h
  · obtain ⟨m, hm, hid, heq⟩ := applyProcessType_primary_some S mapTagB Am x hxm'
    rw [heq] at h3
    exact Option.noConfusion h3

/-- C1 witness: the amended exclusivity theorem applied to the empty store
and disjoint one-mod listings. -/
theorem fullSync_exclusivity_witness :
    ¬(1 ∈ (runFullSync emptyStore false (some [mapMod500])
            (some [scriptMod5])).typeSet (bs "map") ∧
      1 ∈ (runFullSync emptyStore false (some [mapMod500])
            (some [scriptMod5])).typeSet (bs "script")) :=
  fullSync_exclusivity emptyStore [mapMod500] [scriptMod5]
    (fun _ _ h => Option.noConfusion h)
    (fun x hx => absurd hx (List.not_mem_nil x))
    (by decide) 1

/-- C8: per-type failure isolation in a Full Reconciliation cycle.  When the
map-type listing fetch fails, the cycle equals exactly the script type's
processing (its batch is still built and applied, and the watermark is left
alone because one type failed); that processing leaves the map type's ID
set, title index, date index and every map tag set untouched, and leaves the
primary record of any map-indexed id untouched provided the id is not also
script-listed or script-indexed.  Symmetrically when the script-type fetch
fails. -/
theorem fullSync_per_type_isolation (S : Store) (A : List Mod) (hwf : PrimConsistent S) :
    (runFullSync S false none (some A) = applyProcessType S scriptTagB A ∧
      (applyProcessType S scriptTagB A).typeSet (bs "map") = S.typeSet (bs "map") ∧
      (applyProcessType S scriptTagB A).titleIdx (bs "map") = S.titleIdx (bs "map") ∧
      (∀ j, (applyProcessType S scriptTagB A).dateIdx (bs "map") j = S.dateIdx (bs "map") j) ∧
      (∀ t, (applyProcessType S scriptTagB A).tagSet t (bs "map") = S.tagSet t (bs "map")) ∧
      (∀ x, x ∈ S.typeSet (bs "map") → x ∉ A.map Mod.id → x ∉ S.typeSet (bs "script") →
        (applyProcessType S scriptTagB A).primary x = S.primary x)) ∧
    (runFullSync S false (some A) none = applyProcessType S mapTagB A ∧
      (applyProcessType S mapTagB A).typeSet (bs "script") = S.typeSet (bs "script") ∧
      (applyProcessType S mapTagB A).titleIdx (bs "script") = S.titleIdx (bs "script") ∧
      (∀ j, (applyProcessType S mapTagB A).dateIdx (bs "script") j = S.dateIdx (bs "script") j) ∧
      (∀ t, (applyProcessType S mapTagB A).tagSet t (bs "script") = S.tagSet t (bs "script")) ∧
      (∀ x, x ∈ S.typeSet (bs "script") → x ∉ A.map Mod.id → x ∉ S.typeSet (bs "map") →
        (applyProcessType S mapTagB A).primary x = S.primary x)) := by
  obtain ⟨hts1, hti1, hdi1, htg1⟩ :=
    applyProcessType_frame_other S scriptTagB A (bs "map") (by decide)
  obtain ⟨hts2, hti2, hdi2, htg2⟩ :=
    applyProcessType_frame_other S mapTagB A (bs "script") (by decide)
  refine ⟨⟨?_, hts1, hti1, hdi1, htg1, ?_⟩, ⟨?_, hts2, hti2, hdi2, htg2, ?_⟩⟩
  · simp [runFullSync]
  · intro x _ hnx hscr
    exact applyProcessType_primary_frame S scriptTagB A hwf x hnx
      (by rw [show GetModTypeFromTag scriptTagB = bs "script" from by decide]; exact hscr)
  · simp [runFullSync]
  · intro x _ hnx hmap
    exact applyProcessType_primary_frame S mapTagB A hwf x hnx
      (by rw [show GetModTypeFromTag mapTagB = bs "map" from by decide]; exact hmap)

/-- C8 witness: the isolation theorem applied to the empty store and a
one-mod script listing. -/
theorem fullSync_per_type_isolation_witness :
    runFullSync emptyStore false none (some [scriptMod5]) =
      applyProcessType emptyStore scriptTagB [scriptMod5] :=
  (fullSync_per_type_isolation emptyStore [scriptMod5]
    (fun _ _ h => Option.noConfusion h)).1.1

theorem paginate_done_length (fetch : Nat → Option ModioEventsResponse) (cancelPag : Nat → Bool)
    (hpages : ∀ off r, fetch off = some r → r.data.length ≤ modEventsPageLimit) :
    ∀ (fuel offset total : Nat) (acc : List ModioEvent),
      maxEventsPerCycle - total ≤ fuel →
      acc.length = total → total + modEventsPageLimit ≤ maxEventsPerCycle →
      modEventsPageLimit ∣ total →
      ∀ es, paginate fetch cancelPag offset total acc = PageResult.done es →
        es.length ≤ maxEventsPerCycle := by
  intro fuel
  induction fuel with
  | zero =>
    intro offset total acc hfuel hlen hbound hdvd es hdone
    simp only [modEventsPageLimit, maxEventsPerCycle] at hfuel hbound
    omega
  | succ n ihn =>
    intro offset total acc hfuel hlen hbound hdvd es hdone
    rw [paginate.eq_def] at hdone
    cases hf : fetch offset with
    | none =>
      rw [hf] at hdone
      dsimp only at hdone
      obtain rfl := PageResult.done.inj hdone
      simp only [modEventsPageLimit, maxEventsPerCycle] at hbound ⊢
      omega
    | some r =>
      rw [hf] at hdone
      dsimp only at hdone
      by_cases hemp : r.data = []
      · rw [if_pos hemp] at hdone
        obtain rfl := PageResult.done.inj hdone
        simp only [modEventsPageLimit, maxEventsPerCycle] at hbound ⊢
        omega
      · rw [if_neg hemp] at hdone
        have hle := hpages offset r hf
        by_cases hstop : r.data.length < modEventsPageLimit ∨
            total + r.data.length ≥ r.resultTotal ∨
            total + r.data.length ≥ maxEventsPerCycle
        · rw [dif_pos hstop] at hdone
          obtain rfl := PageResult.done.inj hdone
          rw [List.length_append, hlen]
          simp only [modEventsPageLimit, maxEventsPerCycle] at hbound hle ⊢
          omega
        · rw [dif_neg hstop] at hdone
          by_cases hcan : cancelPag (offset + r.data.length)
          · rw [if_pos hcan] at hdone
            exact PageResult.noConfusion hdone
          · rw [if_neg hcan] at hdone
            refine ihn (offset + r.data.length) (total + r.data.length) (acc ++ r.data)
              ?_ ?_ ?_ ?_ es hdone
            · simp only [modEventsPageLimit, maxEventsPerCycle] at hfuel hbound hle hstop ⊢
              omega
            · rw [List.length_append, hlen]
            · obtain ⟨k, hk⟩ := hdvd
              simp only [modEventsPageLimit, maxEventsPerCycle] at hbound hle hstop hk ⊢
              omega
            · have hlen100 : r.data.length = modEventsPageLimit := by
                simp only [modEventsPageLimit] at hle hstop ⊢
                omega
              exact Dvd.dvd.add hdvd (hlen100 ▸ dvd_refl modEventsPageLimit)

/-- C9: under the precondition that every fetched events page holds at most
the requested page limit of 100 events (which divides the per-cycle cap of
1000), the event pagination loop terminates (it is a total function defined
by well-founded recursion on the remaining budget) and, whenever it
completes without cancellation, the accumulated event list holds at most
`maxEventsToProcessInOneCycle` = 1000 events; the loop stops on a short
page, on reaching the source-reported total, or on reaching the cap. -/
theorem paginate_bounded (fetch : Nat → Option ModioEventsResponse) (cancelPag : Nat → Bool)
    (hpages : ∀ off r, fetch off = some r → r.data.length ≤ modEventsPageLimit)
    (es : List ModioEvent) (hdone : paginate fetch cancelPag 0 0 [] = PageResult.done es) :
    es.length ≤ maxEventsPerCycle :=
  paginate_done_length fetch cancelPag hpages maxEventsPerCycle 0 0 []
    (Nat.sub_le _ _) rfl (by decide) (Dvd.intro 0 rfl) es hdone

/-- C9 witness: the bound evaluated on a feed whose first fetch errors. -/
theorem paginate_bounded_witness : (([] : List ModioEvent)).length ≤ maxEventsPerCycle :=
  paginate_bounded (fun _ => none) (fun _ => false) (fun _ r h => Option.noConfusion h) []
    (by simp [paginate])

end ModioApi
